import Mathlib

/-!
Verification of the per-CPU slab engine, transfer cache and NUMA topology
builder of the tcmalloc repository.

The development shallowly embeds the routines of
`tcmalloc/transfer_cache.cc` (which also contains the AArch64 restartable
sequence routines `TcmallocSlab_Internal_*`), `tcmalloc/internal/numa.cc`
and `tcmalloc/stack_trace_table.cc`.  Machine pointers and 16-bit header
indices are modelled as `Nat`; a CPU slab region for one (cpu, size class)
pair is modelled as its slot memory `Nat → Nat` together with the header
indices `begin`, `current`, `end`.  Fallible operations return `Option`
(`none` models a crash / undefined behaviour).
-/

namespace TC

/-! ### Generic memory helpers -/

/-- A single word store into a slot memory. -/
def store (m : Nat → Nat) (a v : Nat) : Nat → Nat :=
  fun j => if j = a then v else m j

/-! ### `TcmallocSlab_Internal_PushBatch_FixedShift`
(percpu_rseq_aarch64.S, part of src/tcmalloc/transfer_cache.cc).

The routine reads `current` and `end` of the header of (cpu, cl); if
`current >= end` it returns 0.  Otherwise it pushes
`count = min(len, end - current)` pointers taken from the END of the batch
(`x11` starts at `batch + len*8` and is pre-decremented), storing them at
slots `current, current+1, ...`:  iteration `i` stores `batch[len-1-i]` at
slot `current + i`.  It then stores `current + count` into the header and
returns `count`.  The store/compare loop is a do-while: with an empty batch
and spare capacity it reads `batch[-1]` and never terminates, so that case
is modelled as `none`. -/

/-- The effect of the first `k` iterations of the store loop of
`TcmallocSlab_Internal_PushBatch_FixedShift`: iteration `i` stores
`batch[len-1-i]` at slot `cur + i`. -/
def pushWrites (m : Nat → Nat) (cur : Nat) (batch : List Nat) : Nat → (Nat → Nat)
  | 0 => m
  | k + 1 => store (pushWrites m cur batch k) (cur + k) (batch.getD (batch.length - 1 - k) 0)

/-- Result of a batch operation: the slot memory after the operation, the
new `current` index and the returned count. -/
structure BatchResult where
  slots : Nat → Nat
  cur : Nat
  ret : Nat

/-- `TcmallocSlab_Internal_PushBatch_FixedShift` on the slab region of the
executing CPU and of size class `cl`. -/
def pushBatchFixedShift (slots : Nat → Nat) (cur endIdx : Nat) (batch : List Nat) :
    Option BatchResult :=
  if endIdx ≤ cur then
    some ⟨slots, cur, 0⟩
  else if batch.length = 0 then
    none
  else
    let count := min batch.length (endIdx - cur)
    some ⟨pushWrites slots cur batch count, cur + count, count⟩

/-! ### `TcmallocSlab_Internal_Push` and `TcmallocSlab_Internal_Pop`
(percpu_rseq_aarch64.S, part of src/tcmalloc/transfer_cache.cc). -/

/-- Result of a single-object slab operation.  `handlerCalls` records the
CPU ids passed to the overflow/underflow handler (`TAILCALL(f)` with the
executing CPU id in `x0`); `ret` is the value of `x0` on a normal return. -/
structure SingleResult where
  slots : Nat → Nat
  cur : Nat
  handlerCalls : List Nat
  ret : Option Nat

/-- `TcmallocSlab_Internal_Push`: if `end <= current` the overflow handler
is tail-called with the executing CPU id and nothing is written; otherwise
the pointer is stored at slot `current`, `current + 1` is stored into the
header and the executing CPU id is returned. -/
def tcmallocPush (slots : Nat → Nat) (cur endIdx : Nat) (p : Nat) (cpu : Nat) :
    SingleResult :=
  if endIdx ≤ cur then
    ⟨slots, cur, [cpu], none⟩
  else
    ⟨store slots cur p, cur + 1, [], some cpu⟩

/-- `TcmallocSlab_Internal_Pop`: if `begin >= current` the underflow handler
is tail-called with the executing CPU id and nothing is written; otherwise
`current - 1` is stored into the header and the object at slot
`current - 1` is returned. -/
def tcmallocPop (slots : Nat → Nat) (beginIdx cur : Nat) (cpu : Nat) :
    SingleResult :=
  if cur ≤ beginIdx then
    ⟨slots, cur, [cpu], none⟩
  else
    ⟨slots, cur - 1, [], some (slots (cur - 1))⟩

/-! ### `TransferCacheManager` (src/tcmalloc/transfer_cache.cc) -/

/-- `TransferCacheImplementation` (transfer_cache.h enum, values used by
transfer_cache.cc). -/
inductive TcImpl
  | Legacy
  | NoCache
  | Ring
deriving DecidableEq

/-- `TransferCacheManager::ChooseImplementation`.  The environment value is
modelled as the character list of the C string (`none` = unset); a fatal
`Crash` is modelled as `none`.  The code tests only `e[0]`; an empty
environment value has `e[0] = '\0'` and crashes. -/
def chooseImplementation (ringExperimentActive : Bool) (env : Option (List Char)) :
    Option TcImpl :=
  if ringExperimentActive then
    some TcImpl.Ring
  else
    match env with
    | none => some TcImpl.Legacy
    | some e =>
      match e with
      | [] => none
      | c :: _ =>
        if c = '0' then some TcImpl.Legacy
        else if c = '1' then some TcImpl.Ring
        else none

/-- One cursor read of `DetermineSizeClassToEvict`: load `next_to_evict_`,
wrap to 1 if it is `>= kNumClasses`, store the successor back.  Returns the
candidate and the new cursor value. -/
def evictStep (kNumClasses : Nat) (cursor : Nat) : Nat × Nat :=
  let t := if kNumClasses ≤ cursor then 1 else cursor
  (t, t + 1)

/-- `TransferCacheManager::DetermineSizeClassToEvict`.  `hasSpare t` models
`cache_[t].rbtc.HasSpareCapacity(t)` resp. `cache_[t].tc.HasSpareCapacity(t)`.
Returns the chosen class and the final cursor value.  Only the Ring variant
short-circuits on `t == current_size_class`; the non-Ring branch consults
`HasSpareCapacity` alone.  The second candidate is returned unconditionally. -/
def determineSizeClassToEvict (impl : TcImpl) (kNumClasses : Nat)
    (hasSpare : Nat → Bool) (currentSizeClass : Nat) (cursor : Nat) : Nat × Nat :=
  let s1 := evictStep kNumClasses cursor
  let accept : Bool :=
    match impl with
    | TcImpl.Ring => s1.1 == currentSizeClass || hasSpare s1.1
    | _ => hasSpare s1.1
  if accept then (s1.1, s1.2)
  else
    let s2 := evictStep kNumClasses s1.2
    (s2.1, s2.2)

/-! ### `StackTraceTable::Iterate` (src/tcmalloc/stack_trace_table.cc)

Per bucket the code computes, from the (already rounded-to-integer) byte
estimate `bytes` and the bucket's `allocated_size`:
`e.count = (bytes + allocated_size / 2) / allocated_size` and
`e.sum = e.count * allocated_size`. -/

/-- The `e.count` field emitted by `StackTraceTable::Iterate` for a bucket
with byte estimate `bytes` and object size `allocatedSize`. -/
def iterateCount (bytes allocatedSize : Nat) : Nat :=
  (bytes + allocatedSize / 2) / allocatedSize

/-- The `e.sum` field emitted by `StackTraceTable::Iterate`. -/
def iterateSum (bytes allocatedSize : Nat) : Nat :=
  iterateCount bytes allocatedSize * allocatedSize

/-! ### `ParseCpulist` (src/tcmalloc/internal/numa.cc)

The parser consumes the cpulist text through an incremental `read`
callback into a 16-byte buffer; a parse state carries the accumulated
`cpu_set_t`, the unconsumed buffer bytes (`carry_over`) and the pending
range start `cpu_from` (`-1` modelled as `none`).  The nondeterministic
chunking of the callback is modelled by a small-step relation
`ParseRun`: at each loop iteration the callback may deliver any number
`rc` of bytes allowed for a POSIX read of a regular file (`ValidRc`). -/

/-- Size of the parse buffer, `std::array<char, 16> buf`. -/
def kBufSize : Nat := 16

/-- `INT_MAX`; `absl::SimpleAtoi<int>` fails above it. -/
def kIntMax : Nat := 2147483647

/-- Numeric value of a decimal digit character, `none` for non-digits. -/
def digitVal (c : Char) : Option Nat :=
  if '0' ≤ c ∧ c ≤ '9' then some (c.toNat - 48) else none

/-- Digit accumulation of `absl::SimpleAtoi` over a character list. -/
def atoiCore : List Char → Nat → Option Nat
  | [], acc => some acc
  | c :: cs, acc =>
    match digitVal c with
    | none => none
    | some d => atoiCore cs (10 * acc + d)

/-- `absl::SimpleAtoi<int>` (external collaborator, modelled for the
non-negative decimal strings this parser feeds it): the whole string must
be a nonempty digit string whose value fits in `int`. -/
def simpleAtoi (s : List Char) : Option Nat :=
  if s.isEmpty then none
  else
    match atoiCore s 0 with
    | none => none
    | some n => if n ≤ kIntMax then some n else none

/-- Index of the first occurrence of `c`, `std::string_view::find`
(`none` = `npos`). -/
def findCh (c : Char) : List Char → Option Nat
  | [] => none
  | x :: xs => if x = c then some 0 else (findCh c xs).map (· + 1)

/-- `dash != npos && dash < comma` where `npos` compares greater than
every index. -/
def dashFirst : Option Nat → Option Nat → Bool
  | none, _ => false
  | some _, none => true
  | some d, some k => d < k

/-- The loop state of `ParseCpulist` between two `read` calls. -/
structure PState where
  cpus : Finset Nat
  carry : List Char
  cpuFrom : Option Nat
deriving DecidableEq

/-- Outcome of one iteration of the `ParseCpulist` loop. -/
inductive StepRes
  | done (out : Finset Nat)
  | crash
  | cont (st : PState) (rest : List Char)
deriving DecidableEq

/-- One iteration of the `ParseCpulist` loop, given that the `read`
callback delivered the next `rc` bytes of the remaining input `r`.
`CHECK_CONDITION` failures are `.crash`; `CPU_SET` over an inclusive
range is `Finset.Icc`. -/
def parseStep (st : PState) (r : List Char) (rc : Nat) : StepRes :=
  let current := st.carry ++ r.take rc
  if current.isEmpty ∧ rc = 0 then
    StepRes.done st.cpus
  else
    let dash := findCh '-' current
    let comma := findCh ',' current
    if dashFirst dash comma then
      match simpleAtoi (current.take (dash.getD 0)) with
      | none => StepRes.crash
      | some a =>
        StepRes.cont ⟨st.cpus, current.drop (dash.getD 0 + 1), some a⟩ (r.drop rc)
    else if comma.isSome ∨ rc = 0 then
      match simpleAtoi (current.take (comma.getD current.length)) with
      | none => StepRes.crash
      | some cpu =>
        let consumed := match comma with
          | none => current.length
          | some k => k + 1
        let cpus' := match st.cpuFrom with
          | some a => st.cpus ∪ Finset.Icc a cpu
          | none => insert cpu st.cpus
        StepRes.cont ⟨cpus', current.drop consumed, none⟩ (r.drop rc)
    else
      StepRes.cont ⟨st.cpus, current, st.cpuFrom⟩ (r.drop rc)

/-- Validity of a byte count delivered by the `read` callback: it fits in
the free part of the buffer, does not exceed the remaining input, and is
zero only at end of input or when zero bytes were requested (a blocking
read of a regular file returns at least one byte otherwise). -/
abbrev ValidRc (st : PState) (r : List Char) (rc : Nat) : Prop :=
  rc ≤ kBufSize - st.carry.length ∧ rc ≤ r.length ∧
    (rc = 0 → r = [] ∨ st.carry.length = kBufSize)

/-- All complete executions of the `ParseCpulist` loop from state `st`
with remaining input `r`, over every valid chunking of the input.
The outcome is `some out` for a normal return and `none` for a
`CHECK_CONDITION` crash. -/
inductive ParseRun : PState → List Char → Option (Finset Nat) → Prop
  | done (st : PState) (r : List Char) (rc : Nat) (out : Finset Nat) :
      ValidRc st r rc → parseStep st r rc = StepRes.done out →
      ParseRun st r (some out)
  | crash (st : PState) (r : List Char) (rc : Nat) :
      ValidRc st r rc → parseStep st r rc = StepRes.crash →
      ParseRun st r none
  | next (st st' : PState) (r r' : List Char) (rc : Nat) (o : Option (Finset Nat)) :
      ValidRc st r rc → parseStep st r rc = StepRes.cont st' r' →
      ParseRun st' r' o → ParseRun st r o

/-- The initial parse state: `CPU_ZERO(&set)`, empty buffer, `cpu_from = -1`. -/
def initPState : PState := ⟨∅, [], none⟩

/-! #### Well-formed cpulist texts

The spec side of claim C6: a cpulist text is a comma-separated list of
single integers and inclusive dash-ranges.  `renderCpulist` produces the
text of such a list; `cpulistCpus` is the set-union the claim requires. -/

/-- One comma-separated item of a cpulist. -/
inductive CpuItem
  | single (n : Nat)
  | range (a b : Nat)

/-- The set of CPUs denoted by one item (a dash-range is inclusive). -/
def itemCpus : CpuItem → Finset Nat
  | CpuItem.single n => {n}
  | CpuItem.range a b => Finset.Icc a b

/-- The set-union of all items of a cpulist. -/
def cpulistCpus (l : List CpuItem) : Finset Nat :=
  l.foldr (fun i s => itemCpus i ∪ s) ∅

/-- The decimal digit character of `d` (callers pass values below 10). -/
def digitChar (d : Nat) : Char :=
  if d = 0 then '0' else if d = 1 then '1' else if d = 2 then '2'
  else if d = 3 then '3' else if d = 4 then '4' else if d = 5 then '5'
  else if d = 6 then '6' else if d = 7 then '7' else if d = 8 then '8' else '9'

/-- Fuelled decimal rendering of a natural number (most significant digit
first once the accumulator is unwound). -/
def renderNatGo : Nat → Nat → List Char → List Char
  | 0, _, acc => acc
  | fuel + 1, n, acc =>
    if n < 10 then digitChar n :: acc
    else renderNatGo fuel (n / 10) (digitChar (n % 10) :: acc)

/-- Decimal rendering of a natural number. -/
def renderNat (n : Nat) : List Char := renderNatGo (n + 1) n []

/-- Text of one cpulist item. -/
def renderItem : CpuItem → List Char
  | CpuItem.single n => renderNat n
  | CpuItem.range a b => renderNat a ++ '-' :: renderNat b

/-- Comma-separated text of a cpulist. -/
def renderCpulist : List CpuItem → List Char
  | [] => []
  | i :: is => renderItem i ++ (if is.isEmpty then [] else ',' :: renderCpulist is)

/-- The separator-plus-tail text following an item. -/
def renderSep (l : List CpuItem) : List Char :=
  if l.isEmpty then [] else ',' :: renderCpulist l

/-- Every number of the item list fits in an `int`. -/
def WfItems (l : List CpuItem) : Prop :=
  ∀ i ∈ l, match i with
    | CpuItem.single n => n ≤ kIntMax
    | CpuItem.range a b => a ≤ kIntMax ∧ b ≤ kIntMax

/-- A string of decimal digit characters. -/
def DigitStr (l : List Char) : Prop := ∀ c ∈ l, '0' ≤ c ∧ c ≤ '9'

/-- The abstract configurations of a partial parse of the cpulist of
`items`: either the parse position sits at an item boundary (`cpu_from`
unset, the unparsed text rendering the remaining items), or inside a
dash-range whose start has been consumed into `cpu_from` (the unparsed
text starting with the range end). `S` is the accumulated cpu set, `cf`
the `cpu_from` register, `U` the total unparsed text. -/
def AbsCfg (items : List CpuItem) (S : Finset Nat) (cf : Option Nat) (U : List Char) :
    Prop :=
  (∃ processed rest, items = processed ++ rest ∧ S = cpulistCpus processed ∧
    cf = none ∧ U = renderCpulist rest) ∨
  (∃ processed a b rest, items = processed ++ CpuItem.range a b :: rest ∧
    S = cpulistCpus processed ∧ cf = some a ∧ U = renderNat b ++ renderSep rest)

/-- The loop invariant of `ParseCpulist` on well-formed cpulist texts. -/
def ParseInv (items : List CpuItem) (st : PState) (r : List Char) : Prop :=
  st.carry.length ≤ kBufSize ∧ AbsCfg items st.cpus st.cpuFrom (st.carry ++ r)

/-! ### `InitNumaTopology` (src/tcmalloc/internal/numa.cc) -/

/-- `NumaBindMode` (numa.h enum, values assigned by numa.cc). -/
inductive NumaBindMode
  | kNone
  | kAdvisory
  | kStrict
deriving DecidableEq

/-- Modelled from the spec: `NodeToPartition` is declared in numa.h, which
is not part of the sources; the spec fixes it as
`partition = node mod num_partitions`. -/
def NodeToPartition (node numPartitions : Nat) : Nat := node % numPartitions

/-- `CPU_SETSIZE` of glibc. -/
def kCpuSetSize : Nat := 1024

/-- The `uint64_t` value the expression `1 << node` contributes to
`partition_to_nodes[partition] |= 1 << node`.  The shifted operand `1` is
a 32-bit `int`, not a `uint64_t`: a shift count of 31 produces the `int`
`-2^31` (whose conversion to `uint64_t` sets bits 31..63), and a count of
32 or more is undefined behaviour, which the target ISAs (x86-64 and
AArch64 32-bit register shifts) resolve by masking the count modulo 32.
So only nodes 0..30 set their own bit. -/
def intShl1 (node : Nat) : Nat :=
  if node % 32 = 31 then 2 ^ 64 - 2 ^ 31 else 2 ^ (node % 32)

/-- Result of `InitNumaTopology`: the return value and the three output
locations.  `cpuToScaledPartition` is indexed as in the source, i.e. the
entry of CPU `c` lives at index `c + kNumaCpuFudge` (the fudge constant
comes from numa.h and is kept abstract as the parameter `fudge`). -/
structure NumaResult where
  aware : Bool
  bindMode : NumaBindMode
  cpuToScaledPartition : Nat → Nat
  partitionToNodes : Nat → Nat

/-- The node enumeration loop of `InitNumaTopology`.  `nodes` lists the
`cpu_set_t` parsed from each existing node's cpulist file, node indices
starting at `node`; enumeration stops at the first absent node (the end of
the list).  The `for (cpu = 0; cpu < CPU_SETSIZE; ...)` loop assigns
`cpu_to_scaled_partition[cpu + kNumaCpuFudge] = partition * scale_by` for
every member CPU below `CPU_SETSIZE` of a node of non-zero partition. -/
def numaLoop (numPartitions scaleBy fudge : Nat) :
    List (Finset Nat) → Nat → (Nat → Nat) → (Nat → Nat) → Bool →
    (Nat → Nat) × (Nat → Nat) × Bool
  | [], _, c2p, p2n, aware => (c2p, p2n, aware)
  | cpus :: rest, node, c2p, p2n, aware =>
    let partition := NodeToPartition node numPartitions
    let p2n' : Nat → Nat := fun p => if p = partition then p2n p ||| intShl1 node else p2n p
    if partition = 0 then
      numaLoop numPartitions scaleBy fudge rest (node + 1) c2p p2n' aware
    else
      let c2p' : Nat → Nat := fun i =>
        if fudge ≤ i ∧ i - fudge < kCpuSetSize ∧ (i - fudge) ∈ cpus then
          partition * scaleBy
        else c2p i
      let aware' := aware || decide (cpus.card ≠ 0)
      numaLoop numPartitions scaleBy fudge rest (node + 1) c2p' p2n' aware'

/-- The `partition_to_nodes` table right after the unconditional
`partition_to_nodes[NodeToPartition(0, num_partitions)] |= 1 << 0` and
before the enumeration loop (the table is zero-initialized). -/
def p2nInit (numPartitions : Nat) : Nat → Nat :=
  fun p => if p = NodeToPartition 0 numPartitions then 1 else 0

/-- `InitNumaTopology`.  `env` is the value of `TCMALLOC_NUMA_AWARE`
(`none` = unset), `defaultWant` is `default_want_numa_aware()`, `isFast`
is `subtle::percpu::IsFast()`, `numCpus` is `absl::NumCPUs()`, `bindMode0`
is the incoming value of `*bind_mode` and `nodes` describes the existing
NUMA nodes as for `numaLoop`.  A `Crash` or failed `CHECK_CONDITION` is
`none`. -/
def initNumaTopology (defaultWant isFast : Bool) (env : Option (List Char))
    (numPartitions scaleBy fudge numCpus : Nat) (bindMode0 : NumaBindMode)
    (nodes : List (Finset Nat)) : Option NumaResult :=
  let c2p0 : Nat → Nat := fun _ => 0
  let p2n0 := p2nInit numPartitions
  if numPartitions = 1 then some ⟨false, bindMode0, c2p0, p2n0⟩
  else if isFast = false then some ⟨false, bindMode0, c2p0, p2n0⟩
  else
    let resolved : Option (Option NumaBindMode) :=
      match env with
      | none => if defaultWant then some (some bindMode0) else some none
      | some e =>
        if e = ['n','o','-','b','i','n','d','i','n','g'] then
          some (some NumaBindMode.kNone)
        else if e = ['a','d','v','i','s','o','r','y','-','b','i','n','d','i','n','g'] ∨ e = ['1'] then
          some (some NumaBindMode.kAdvisory)
        else if e = ['s','t','r','i','c','t','-','b','i','n','d','i','n','g'] then
          some (some NumaBindMode.kStrict)
        else if e = ['0'] then
          some none
        else
          none
    match resolved with
    | none => none
    | some none => some ⟨false, bindMode0, c2p0, p2n0⟩
    | some (some bm) =>
      if kCpuSetSize < numCpus then none
      else
        let l := numaLoop numPartitions scaleBy fudge nodes 0 c2p0 p2n0 false
        some ⟨l.2.2, bm, l.1, l.2.1⟩

/-- The configurations in which `InitNumaTopology` proceeds to the node
enumeration loop: the environment variable carries one of the enabling
values, or is unset while the compiled-in default asks for awareness. -/
def numaEnvEnabled (defaultWant : Bool) (env : Option (List Char)) : Prop :=
  (env = none ∧ defaultWant = true) ∨
  env = some ['n','o','-','b','i','n','d','i','n','g'] ∨
  env = some ['a','d','v','i','s','o','r','y','-','b','i','n','d','i','n','g'] ∨
  env = some ['1'] ∨
  env = some ['s','t','r','i','c','t','-','b','i','n','d','i','n','g']

/-! ## Lemmas about the push loop -/

theorem pushWrites_hit (m : Nat → Nat) (cur : Nat) (batch : List Nat) :
    ∀ k i, i < k → pushWrites m cur batch k (cur + i) = batch.getD (batch.length - 1 - i) 0 := by
  intro k
  induction k with
  | zero => intro i hi; omega
  | succ k ih =>
    intro i hi
    simp only [pushWrites, store]
    by_cases hik : cur + i = cur + k
    · have hik' : i = k := by omega
      subst hik'
      rw [if_pos rfl]
    · rw [if_neg hik]
      exact ih i (by omega)

theorem pushWrites_miss (m : Nat → Nat) (cur : Nat) (batch : List Nat) :
    ∀ k j, (j < cur ∨ cur + k ≤ j) → pushWrites m cur batch k j = m j := by
  intro k
  induction k with
  | zero => intro j _; rfl
  | succ k ih =>
    intro j hj
    have hne : j ≠ cur + k := by omega
    simp only [pushWrites, store]
    rw [if_neg hne]
    exact ih j (by omega)

/-- C1 (counterexample): with slots zeroed, `current = 0`, `end = 2` and the
batch `[10, 20, 30]`, the claim predicts that the first
`min(3, 2) = 2` pointers `10, 20` are pushed, in reverse input order, so
slot 0 would hold `20`; the code instead takes the pointers from the end
of the batch and stores `30` at slot 0 (and `20` at slot 1). -/
theorem pushBatch_takes_last_not_first :
    (TC.pushBatchFixedShift (fun _ => 0) 0 2 [10, 20, 30]).map
        (fun res => (res.slots 0, res.slots 1, res.cur, res.ret)) = some (30, 20, 2, 2) ∧
    ¬ (TC.pushBatchFixedShift (fun _ => 0) 0 2 [10, 20, 30]).map
        (fun res => res.slots 0) = some 20 := by
  constructor
  · rfl
  · decide

/-- C1 (amended): for every slab header state and nonempty batch of `n`
pointers, `TcmallocSlab_Internal_PushBatch_FixedShift` pushes exactly the
LAST `min(n, end-current)` pointers of the supplied batch into slots
`[current, current + min(n, end-current))`, in reverse input order
relative to stack growth (the last-supplied pointer lands at the old
`current`), leaves every other slot untouched, updates `current`
accordingly, and returns the number pushed (0 when `current >= end`). -/
theorem pushBatch_spec (slots : Nat → Nat) (cur endIdx : Nat) (batch : List Nat)
    (hb : batch ≠ []) :
    (endIdx ≤ cur →
      TC.pushBatchFixedShift slots cur endIdx batch = some ⟨slots, cur, 0⟩) ∧
    (cur < endIdx →
      ∃ res, TC.pushBatchFixedShift slots cur endIdx batch = some res ∧
        res.ret = min batch.length (endIdx - cur) ∧
        res.cur = cur + res.ret ∧
        (∀ i, i < res.ret →
          res.slots (cur + i) = batch.getD (batch.length - 1 - i) 0) ∧
        (∀ j, j < cur ∨ cur + res.ret ≤ j → res.slots j = slots j)) := by
  constructor
  · intro h
    simp [TC.pushBatchFixedShift, h]
  · intro h
    have h1 : ¬ endIdx ≤ cur := by omega
    have h2 : ¬ batch.length = 0 := by
      intro h0; exact hb (List.length_eq_zero.mp h0)
    have heq : TC.pushBatchFixedShift slots cur endIdx batch =
        some ⟨pushWrites slots cur batch (min batch.length (endIdx - cur)),
              cur + min batch.length (endIdx - cur),
              min batch.length (endIdx - cur)⟩ := by
      simp [TC.pushBatchFixedShift, h1, h2]
    refine ⟨_, heq, rfl, rfl, ?_, ?_⟩
    · intro i hi
      exact pushWrites_hit slots cur batch _ i hi
    · intro j hj
      exact pushWrites_miss slots cur batch _ j hj

/-- C1 witness instantiating `pushBatch_spec`. -/
theorem pushBatch_spec_witness :
    ∃ res, TC.pushBatchFixedShift (fun _ => 0) 0 2 [10, 20, 30] = some res ∧
      res.ret = min 3 2 ∧ res.cur = 0 + res.ret ∧
      (∀ i, i < res.ret → res.slots (0 + i) = [10, 20, 30].getD (3 - 1 - i) 0) ∧
      (∀ j, j < 0 ∨ 0 + res.ret ≤ j → res.slots j = (fun _ => 0 : Nat → Nat) j) :=
  (pushBatch_spec (fun _ => 0) 0 2 [10, 20, 30] (by decide)).2 (by decide)

/-- C2: under the header invariant `begin <= current <= end`, a
single-object Push at `current = end` invokes the overflow handler exactly
once with the executing CPU id and writes no slot and no index; otherwise
it stores the pointer at slot `current` and increments `current`.  A
single-object Pop at `begin = current` invokes the underflow handler
exactly once with the executing CPU id, reads no slot and writes no index;
otherwise it decrements `current` and returns the object at the new
`current`, an index that never lies below `begin`. -/
theorem push_pop_boundary (slots : Nat → Nat) (beginIdx cur endIdx p cpu : Nat)
    (h1 : beginIdx ≤ cur) (h2 : cur ≤ endIdx) :
    (cur = endIdx →
      TC.tcmallocPush slots cur endIdx p cpu = ⟨slots, cur, [cpu], none⟩) ∧
    (cur < endIdx →
      TC.tcmallocPush slots cur endIdx p cpu =
        ⟨TC.store slots cur p, cur + 1, [], some cpu⟩) ∧
    (beginIdx = cur →
      TC.tcmallocPop slots beginIdx cur cpu = ⟨slots, cur, [cpu], none⟩) ∧
    (beginIdx < cur →
      TC.tcmallocPop slots beginIdx cur cpu =
        ⟨slots, cur - 1, [], some (slots (cur - 1))⟩ ∧ beginIdx ≤ cur - 1) := by
  refine ⟨?_, ?_, ?_, ?_⟩
  · intro h
    have hle : endIdx ≤ cur := h.ge
    simp [TC.tcmallocPush, hle]
  · intro h
    have hnle : ¬ endIdx ≤ cur := by omega
    simp [TC.tcmallocPush, hnle]
  · intro h
    have hle : cur ≤ beginIdx := h.ge
    simp [TC.tcmallocPop, hle]
  · intro h
    have hnle : ¬ cur ≤ beginIdx := by omega
    exact ⟨by simp [TC.tcmallocPop, hnle], by omega⟩

/-- C2 witness instantiating `push_pop_boundary`. -/
theorem push_pop_boundary_witness :
    TC.tcmallocPush (fun _ => 7) 3 3 42 5 = ⟨fun _ => 7, 3, [5], none⟩ ∧
    TC.tcmallocPop (fun _ => 7) 1 3 5 = ⟨fun _ => 7, 2, [], some 7⟩ :=
  ⟨(push_pop_boundary (fun _ => 7) 1 3 3 42 5 (by decide) (by decide)).1 rfl,
   ((push_pop_boundary (fun _ => 7) 1 3 3 42 5 (by decide) (by decide)).2.2.2
      (by decide)).1⟩

/-- C3 (counterexample): in the Legacy variant, with `kNumClasses = 4`,
no class reporting spare capacity, cursor at 2 and
`current_size_class = 2`, the claim predicts that the first candidate 2 is
accepted immediately because it equals `current_size_class`; the code
ignores that test in the Legacy variant and returns the second candidate 3. -/
theorem evict_legacy_no_self_check :
    (TC.determineSizeClassToEvict TC.TcImpl.Legacy 4 (fun _ => false) 2 2).1 = 3 ∧
    ¬ (TC.determineSizeClassToEvict TC.TcImpl.Legacy 4 (fun _ => false) 2 2).1 = 2 := by
  decide

/-- C3 (amended): `DetermineSizeClassToEvict` takes a first candidate from
the shared round-robin cursor (advancing it, wrapping past the maximum
class back to 1).  In the Ring variant the first candidate is accepted
immediately if it equals `current_size_class` or reports spare capacity;
in the Legacy (non-Ring) variant only if it reports spare capacity.
Otherwise exactly one more candidate is taken from the cursor (again
advancing it) and returned unconditionally, so at most two probes occur. -/
theorem evict_two_probes (impl : TC.TcImpl) (kNumClasses : Nat)
    (hasSpare : Nat → Bool) (current cursor : Nat) :
    (impl = TC.TcImpl.Ring →
      (((TC.evictStep kNumClasses cursor).1 = current ∨
          hasSpare (TC.evictStep kNumClasses cursor).1 = true) →
        TC.determineSizeClassToEvict impl kNumClasses hasSpare current cursor =
          TC.evictStep kNumClasses cursor) ∧
      ((TC.evictStep kNumClasses cursor).1 ≠ current →
        hasSpare (TC.evictStep kNumClasses cursor).1 = false →
        TC.determineSizeClassToEvict impl kNumClasses hasSpare current cursor =
          TC.evictStep kNumClasses (TC.evictStep kNumClasses cursor).2)) ∧
    (impl ≠ TC.TcImpl.Ring →
      (hasSpare (TC.evictStep kNumClasses cursor).1 = true →
        TC.determineSizeClassToEvict impl kNumClasses hasSpare current cursor =
          TC.evictStep kNumClasses cursor) ∧
      (hasSpare (TC.evictStep kNumClasses cursor).1 = false →
        TC.determineSizeClassToEvict impl kNumClasses hasSpare current cursor =
          TC.evictStep kNumClasses (TC.evictStep kNumClasses cursor).2)) := by
  constructor
  · rintro rfl
    constructor
    · intro hacc
      have : ((TC.evictStep kNumClasses cursor).1 == current ||
          hasSpare (TC.evictStep kNumClasses cursor).1) = true := by
        rcases hacc with h | h
        · simp [h]
        · simp [h]
      simp [TC.determineSizeClassToEvict, this]
    · intro hne hsp
      have : ((TC.evictStep kNumClasses cursor).1 == current ||
          hasSpare (TC.evictStep kNumClasses cursor).1) = false := by
        simp [hsp, hne]
      simp [TC.determineSizeClassToEvict, this]
  · intro hni
    constructor
    · intro hsp
      cases impl with
      | Ring => exact absurd rfl hni
      | Legacy => simp [TC.determineSizeClassToEvict, hsp]
      | NoCache => simp [TC.determineSizeClassToEvict, hsp]
    · intro hsp
      cases impl with
      | Ring => exact absurd rfl hni
      | Legacy => simp [TC.determineSizeClassToEvict, hsp]
      | NoCache => simp [TC.determineSizeClassToEvict, hsp]

/-- C3 witness instantiating `evict_two_probes`. -/
theorem evict_two_probes_witness :
    TC.determineSizeClassToEvict TC.TcImpl.Legacy 4 (fun _ => false) 2 2 =
      TC.evictStep 4 (TC.evictStep 4 2).2 :=
  ((evict_two_probes TC.TcImpl.Legacy 4 (fun _ => false) 2 2).2 (by decide)).2 rfl

/-- C8: provided the cursor is at least 1 (its initial value is 1 and,
as the conjunction shows, every call stores back a value at least 1),
`DetermineSizeClassToEvict` returns a class in `[1, kNumClasses)` and in
particular never class 0. -/
theorem evict_class_in_range (impl : TC.TcImpl) (kNumClasses : Nat)
    (hasSpare : Nat → Bool) (current cursor : Nat)
    (hk : 2 ≤ kNumClasses) (hc : 1 ≤ cursor) :
    1 ≤ (TC.determineSizeClassToEvict impl kNumClasses hasSpare current cursor).1 ∧
    (TC.determineSizeClassToEvict impl kNumClasses hasSpare current cursor).1 < kNumClasses ∧
    1 ≤ (TC.determineSizeClassToEvict impl kNumClasses hasSpare current cursor).2 := by
  have hstep : ∀ c, 1 ≤ c → 1 ≤ (TC.evictStep kNumClasses c).1 ∧
      (TC.evictStep kNumClasses c).1 < kNumClasses ∧
      (TC.evictStep kNumClasses c).2 = (TC.evictStep kNumClasses c).1 + 1 := by
    intro c hc1
    unfold TC.evictStep
    by_cases h : kNumClasses ≤ c
    · simp [h]; omega
    · simp [h]; omega
  have h1 := hstep cursor hc
  have h2 := hstep (TC.evictStep kNumClasses cursor).2 (by omega)
  unfold TC.determineSizeClassToEvict
  cases impl <;> dsimp only <;> split <;> omega

/-- C8 witness instantiating `evict_class_in_range`. -/
theorem evict_class_in_range_witness :
    1 ≤ (TC.determineSizeClassToEvict TC.TcImpl.Ring 4 (fun _ => true) 2 1).1 ∧
    (TC.determineSizeClassToEvict TC.TcImpl.Ring 4 (fun _ => true) 2 1).1 < 4 ∧
    1 ≤ (TC.determineSizeClassToEvict TC.TcImpl.Ring 4 (fun _ => true) 2 1).2 :=
  evict_class_in_range TC.TcImpl.Ring 4 (fun _ => true) 2 1 (by decide) (by decide)

/-- C4 (counterexample): with the experiment inactive and
`TCMALLOC_INTERNAL_TRANSFERCACHE_CONTROL="00"` — a value that is neither
`"0"` nor `"1"` — the claim predicts a fatal abort, but the code only
inspects the first character and returns Legacy. -/
theorem chooseImplementation_first_char_only :
    TC.chooseImplementation false (some ['0', '0']) = some TC.TcImpl.Legacy ∧
    ['0', '0'] ≠ ['0'] ∧ ['0', '0'] ≠ ['1'] ∧
    TC.chooseImplementation false (some ['0', '0']) ≠ none := by
  decide

/-- C4 (amended): `ChooseImplementation` returns Ring when the ring-buffer
experiment flag is active; otherwise, when the environment variable is
set, it decides by the FIRST character of the value: a value starting
with '0' selects Legacy, a value starting with '1' selects Ring, and
every other value (including the empty string) aborts the process;
otherwise it returns Legacy. -/
theorem chooseImplementation_spec (ringActive : Bool) (env : Option (List Char)) :
    (ringActive = true →
      TC.chooseImplementation ringActive env = some TC.TcImpl.Ring) ∧
    (ringActive = false → env = none →
      TC.chooseImplementation ringActive env = some TC.TcImpl.Legacy) ∧
    (ringActive = false → ∀ c cs, env = some (c :: cs) →
      TC.chooseImplementation ringActive env =
        (if c = '0' then some TC.TcImpl.Legacy
         else if c = '1' then some TC.TcImpl.Ring
         else none)) ∧
    (ringActive = false → env = some [] →
      TC.chooseImplementation ringActive env = none) := by
  refine ⟨?_, ?_, ?_, ?_⟩
  · rintro rfl; rfl
  · rintro rfl rfl; rfl
  · rintro rfl c cs rfl; rfl
  · rintro rfl rfl; rfl

/-- C4 witness instantiating `chooseImplementation_spec`. -/
theorem chooseImplementation_spec_witness :
    TC.chooseImplementation false (some ['2']) =
      (if '2' = '0' then some TC.TcImpl.Legacy
       else if '2' = '1' then some TC.TcImpl.Ring
       else none) :=
  (chooseImplementation_spec false (some ['2'])).2.2.1 rfl '2' [] rfl

/-- C10: for every bucket byte estimate and positive allocated object
size, the sample emitted by `StackTraceTable::Iterate` satisfies
`sum = count * allocated_size` exactly, so `sum` is an integer multiple of
`allocated_size`, and `sum` is a multiple nearest to the byte estimate
(no other multiple of `allocated_size` is strictly closer). -/
theorem iterate_sum_nearest_multiple (bytes asize : Nat) (h : 0 < asize) :
    TC.iterateSum bytes asize = TC.iterateCount bytes asize * asize ∧
    asize ∣ TC.iterateSum bytes asize ∧
    ∀ k : Nat, Nat.dist (TC.iterateSum bytes asize) bytes ≤ Nat.dist (k * asize) bytes := by
  refine ⟨rfl, dvd_mul_left asize (TC.iterateCount bytes asize), ?_⟩
  intro k
  have hqr : bytes / asize * asize + bytes % asize = bytes := by
    rw [mul_comm]
    exact Nat.div_add_mod bytes asize
  have hrlt : bytes % asize < asize := Nat.mod_lt _ h
  have hcount : TC.iterateCount bytes asize =
      bytes / asize + (bytes % asize + asize / 2) / asize := by
    rw [TC.iterateCount]
    conv_lhs => rw [← hqr]
    rw [show bytes / asize * asize + bytes % asize + asize / 2 =
          asize * (bytes / asize) + (bytes % asize + asize / 2) by ring]
    exact Nat.mul_add_div h _ _
  have hhalf : asize / 2 < asize := Nat.div_lt_self h (by norm_num)
  set d := (bytes % asize + asize / 2) / asize with hdd
  have h2 : d < 2 := by
    rw [hdd]
    exact (Nat.div_lt_iff_lt_mul h).mpr (by omega)
  have hup : asize ≤ bytes % asize + asize / 2 → 1 ≤ d := by
    intro hle
    rw [hdd]
    exact (Nat.one_le_div_iff h).mpr hle
  have hdown : bytes % asize + asize / 2 < asize → d = 0 := by
    intro hlt
    rw [hdd]
    exact Nat.div_eq_of_lt hlt
  clear_value d
  clear hdd
  have hd01 : d = 0 ∨ d = 1 := by omega
  -- product comparison facts with uniform atom orientation
  have hexp : ∀ d, (bytes / asize + d) * asize =
      bytes / asize * asize + d * asize := fun d => by ring
  have hcmp1 : k ≤ bytes / asize → k * asize ≤ bytes / asize * asize :=
    fun hk => Nat.mul_le_mul_right _ hk
  have hcmp2 : k < bytes / asize → k * asize + asize ≤ bytes / asize * asize := by
    intro hk
    have := Nat.mul_le_mul_right asize (show k + 1 ≤ bytes / asize by omega)
    calc k * asize + asize = (k + 1) * asize := by ring
    _ ≤ bytes / asize * asize := this
  have hcmp3 : bytes / asize < k → bytes / asize * asize + asize ≤ k * asize := by
    intro hk
    have := Nat.mul_le_mul_right asize (show bytes / asize + 1 ≤ k by omega)
    calc bytes / asize * asize + asize = (bytes / asize + 1) * asize := by ring
    _ ≤ k * asize := this
  rcases hd01 with hd | hd
  · -- rounded down: the nearest multiple is bytes/asize * asize, 2r <= asize
    have h2r : ¬ asize ≤ bytes % asize + asize / 2 := by
      intro hle
      have h1d : 1 ≤ d := hup hle
      omega
    have hsum : TC.iterateSum bytes asize = bytes / asize * asize := by
      rw [TC.iterateSum, hcount, hd, hexp]
      ring
    rw [hsum]
    simp only [Nat.dist]
    rcases Nat.lt_trichotomy k (bytes / asize) with hk | hk | hk
    · have := hcmp2 hk
      omega
    · subst hk
      omega
    · have := hcmp3 hk
      omega
  · -- rounded up: the nearest multiple is (bytes/asize + 1) * asize, asize <= 2r
    have h2r : asize ≤ bytes % asize + asize / 2 := by
      rcases Nat.lt_or_ge (bytes % asize + asize / 2) asize with hlt | hge
      · exfalso
        have h0d : d = 0 := hdown hlt
        omega
      · exact hge
    have hsum : TC.iterateSum bytes asize = bytes / asize * asize + asize := by
      rw [TC.iterateSum, hcount, hd, hexp]
      ring
    rw [hsum]
    simp only [Nat.dist]
    rcases Nat.lt_trichotomy k (bytes / asize) with hk | hk | hk
    · have := hcmp2 hk
      have := hcmp1 (le_of_lt hk)
      omega
    · subst hk
      omega
    · have := hcmp3 hk
      omega

/-! ## Lemmas about the NUMA node enumeration loop -/

theorem numaLoop_p2n_preserve (np scaleBy fudge : Nat) :
    ∀ (nodes : List (Finset Nat)) (start : Nat) (c2p p2n : Nat → Nat) (aware : Bool)
      (p i : Nat), (p2n p).testBit i = true →
      ((TC.numaLoop np scaleBy fudge nodes start c2p p2n aware).2.1 p).testBit i = true := by
  intro nodes
  induction nodes with
  | nil => intro start c2p p2n aware p i hbit; exact hbit
  | cons cpus rest ih =>
    intro start c2p p2n aware p i hbit
    simp only [TC.numaLoop]
    have hkeep : ((fun x => if x = TC.NodeToPartition start np
        then p2n x ||| (TC.intShl1 start) else p2n x) p).testBit i = true := by
      show (if p = TC.NodeToPartition start np
        then p2n p ||| (TC.intShl1 start) else p2n p).testBit i = true
      by_cases hp : p = TC.NodeToPartition start np
      · rw [if_pos hp, Nat.testBit_lor, hbit, Bool.true_or]
      · rw [if_neg hp]; exact hbit
    split
    · exact ih (start + 1) c2p _ aware p i hkeep
    · exact ih (start + 1) _ _ _ p i hkeep

theorem intShl1_of_le_30 (node : Nat) (h : node ≤ 30) :
    TC.intShl1 node = 2 ^ node := by
  have h32 : node % 32 = node := Nat.mod_eq_of_lt (by omega)
  simp only [TC.intShl1, h32]
  rw [if_neg (by omega : ¬ node = 31)]

theorem numaLoop_bit (np scaleBy fudge : Nat) :
    ∀ (nodes : List (Finset Nat)) (start : Nat) (c2p p2n : Nat → Nat) (aware : Bool)
      (k : Nat), k < nodes.length → start + k ≤ 30 →
      ((TC.numaLoop np scaleBy fudge nodes start c2p p2n aware).2.1
          (TC.NodeToPartition (start + k) np)).testBit (start + k) = true := by
  intro nodes
  induction nodes with
  | nil => intro start c2p p2n aware k hk _; simp at hk
  | cons cpus rest ih =>
    intro start c2p p2n aware k hk h30
    cases k with
    | zero =>
      have hstart30 : start ≤ 30 := by omega
      have hset : ((fun x => if x = TC.NodeToPartition start np
          then p2n x ||| (TC.intShl1 start) else p2n x)
            (TC.NodeToPartition start np)).testBit start = true := by
        show (if TC.NodeToPartition start np = TC.NodeToPartition start np
          then p2n (TC.NodeToPartition start np) ||| (TC.intShl1 start)
          else p2n (TC.NodeToPartition start np)).testBit start = true
        rw [if_pos rfl, Nat.testBit_lor, intShl1_of_le_30 start hstart30,
          Nat.testBit_two_pow_self, Bool.or_true]
      simp only [TC.numaLoop, Nat.add_zero]
      split
      · exact numaLoop_p2n_preserve np scaleBy fudge rest (start + 1) _ _ _ _ _ hset
      · exact numaLoop_p2n_preserve np scaleBy fudge rest (start + 1) _ _ _ _ _ hset
    | succ k =>
      have hk' : k < rest.length := by simpa using hk
      have harith : start + (k + 1) = (start + 1) + k := by omega
      rw [harith]
      simp only [TC.numaLoop]
      split
      · exact ih (start + 1) _ _ _ k hk' (by omega)
      · exact ih (start + 1) _ _ _ k hk' (by omega)

theorem numaLoop_c2p_untouched (np scaleBy fudge : Nat) :
    ∀ (nodes : List (Finset Nat)) (start : Nat) (c2p p2n : Nat → Nat) (aware : Bool)
      (j : Nat),
      (∀ k (hk : k < nodes.length), TC.NodeToPartition (start + k) np ≠ 0 →
        ¬ (fudge ≤ j ∧ j - fudge < TC.kCpuSetSize ∧ (j - fudge) ∈ nodes.get ⟨k, hk⟩)) →
      (TC.numaLoop np scaleBy fudge nodes start c2p p2n aware).1 j = c2p j := by
  intro nodes
  induction nodes with
  | nil => intro start c2p p2n aware j _; rfl
  | cons cpus rest ih =>
    intro start c2p p2n aware j hnone
    simp only [TC.numaLoop]
    split
    · refine ih (start + 1) _ _ _ j ?_
      intro k hk hpart
      have := hnone (k + 1) (by simpa using Nat.succ_lt_succ hk)
        (by rw [show start + (k + 1) = (start + 1) + k by omega]; exact hpart)
      simpa using this
    · rename_i hpart0
      have hhead := hnone 0 (by simp) (by simpa using hpart0)
      have hcond : ¬ (fudge ≤ j ∧ j - fudge < TC.kCpuSetSize ∧ (j - fudge) ∈ cpus) := by
        simpa using hhead
      have htail : ∀ k (hk : k < rest.length), TC.NodeToPartition ((start + 1) + k) np ≠ 0 →
          ¬ (fudge ≤ j ∧ j - fudge < TC.kCpuSetSize ∧ (j - fudge) ∈ rest.get ⟨k, hk⟩) := by
        intro k hk hpart
        have := hnone (k + 1) (by simpa using Nat.succ_lt_succ hk)
          (by rw [show start + (k + 1) = (start + 1) + k by omega]; exact hpart)
        simpa using this
      exact (ih (start + 1) _ _ _ j htail).trans (if_neg hcond)

theorem numaLoop_c2p_set (np scaleBy fudge : Nat) :
    ∀ (nodes : List (Finset Nat)) (start : Nat) (c2p p2n : Nat → Nat) (aware : Bool)
      (k : Nat) (hk : k < nodes.length) (cpu : Nat),
      TC.NodeToPartition (start + k) np ≠ 0 →
      cpu ∈ nodes.get ⟨k, hk⟩ → cpu < TC.kCpuSetSize →
      (∀ k2 (hk2 : k2 < nodes.length), k < k2 →
        TC.NodeToPartition (start + k2) np ≠ 0 → cpu ∉ nodes.get ⟨k2, hk2⟩) →
      (TC.numaLoop np scaleBy fudge nodes start c2p p2n aware).1 (cpu + fudge) =
        TC.NodeToPartition (start + k) np * scaleBy := by
  intro nodes
  induction nodes with
  | nil => intro start c2p p2n aware k hk; simp at hk
  | cons cpus rest ih =>
    intro start c2p p2n aware k hk cpu hpart hmem hlt hlater
    cases k with
    | zero =>
      have hpart0 : TC.NodeToPartition start np ≠ 0 := by simpa using hpart
      have hmem0 : cpu ∈ cpus := by simpa using hmem
      simp only [TC.numaLoop, Nat.add_zero]
      rw [if_neg hpart0]
      have hcond : fudge ≤ cpu + fudge ∧ cpu + fudge - fudge < TC.kCpuSetSize ∧
          (cpu + fudge - fudge) ∈ cpus := by
        refine ⟨Nat.le_add_left _ _, ?_, ?_⟩
        · rw [Nat.add_sub_cancel]; exact hlt
        · rw [Nat.add_sub_cancel]; exact hmem0
      have htail : ∀ k2 (hk2 : k2 < rest.length),
          TC.NodeToPartition ((start + 1) + k2) np ≠ 0 →
          ¬ (fudge ≤ cpu + fudge ∧ cpu + fudge - fudge < TC.kCpuSetSize ∧
              (cpu + fudge - fudge) ∈ rest.get ⟨k2, hk2⟩) := by
        intro k2 hk2 hpart2 hbad
        have hk2' : k2 + 1 < (cpus :: rest).length := by simpa using Nat.succ_lt_succ hk2
        have hpart2' : TC.NodeToPartition (start + (k2 + 1)) np ≠ 0 := by
          rw [show start + (k2 + 1) = (start + 1) + k2 by omega]; exact hpart2
        have hne := hlater (k2 + 1) hk2' (Nat.succ_pos _) hpart2'
        have hne' : cpu ∉ rest.get ⟨k2, hk2⟩ := by simpa using hne
        have hc : cpu + fudge - fudge = cpu := Nat.add_sub_cancel cpu fudge
        rw [hc] at hbad
        exact hne' hbad.2.2
      have huntouched := numaLoop_c2p_untouched np scaleBy fudge rest (start + 1)
        (fun i => if fudge ≤ i ∧ i - fudge < TC.kCpuSetSize ∧ (i - fudge) ∈ cpus
          then TC.NodeToPartition start np * scaleBy else c2p i)
        (fun p => if p = TC.NodeToPartition start np then p2n p ||| (TC.intShl1 start) else p2n p)
        (aware || decide (cpus.card ≠ 0)) (cpu + fudge) htail
      exact huntouched.trans (if_pos hcond)
    | succ k =>
      have hk' : k < rest.length := by simpa using hk
      have harith : start + (k + 1) = (start + 1) + k := by omega
      rw [harith]
      rw [harith] at hpart
      have hmem' : cpu ∈ rest.get ⟨k, hk'⟩ := by simpa using hmem
      have hlater' : ∀ k2 (hk2 : k2 < rest.length), k < k2 →
          TC.NodeToPartition ((start + 1) + k2) np ≠ 0 → cpu ∉ rest.get ⟨k2, hk2⟩ := by
        intro k2 hk2 hlt2 hpart2
        have := hlater (k2 + 1) (by simpa using Nat.succ_lt_succ hk2) (by omega)
          (by rw [show start + (k2 + 1) = (start + 1) + k2 by omega]; exact hpart2)
        simpa using this
      simp only [TC.numaLoop]
      split
      · exact ih (start + 1) _ _ _ k hk' cpu hpart hmem' hlt hlater'
      · exact ih (start + 1) _ _ _ k hk' cpu hpart hmem' hlt hlater'

/-- When NUMA awareness is enabled (at least two compiled-in partitions,
rseq available, and the environment resolving to an enabled mode),
`InitNumaTopology` records every existing node with index at most 30 —
the region where the 32-bit shift `1 << node` is defined and sets the
node's own bit — in the node bitset of partition
`node mod num_partitions`, and for every node of non-zero partition
assigns `partition * scale_by` to the `cpu_to_scaled_partition` entry of
each CPU in that node's cpulist, while entries of CPUs appearing only in
partition-0 nodes (or in no node) keep their default 0.  Nodes' CPU lists
are pairwise disjoint, as they are on a real system. -/
theorem numa_partition_assignment (defaultWant : Bool) (env : Option (List Char))
    (numPartitions scaleBy fudge numCpus : Nat) (bindMode0 : TC.NumaBindMode)
    (nodes : List (Finset Nat))
    (hnp : 2 ≤ numPartitions) (hcpus : numCpus ≤ TC.kCpuSetSize)
    (henabled : TC.numaEnvEnabled defaultWant env)
    (hdisj : nodes.Pairwise (fun s t => Disjoint s t)) :
    ∃ res, TC.initNumaTopology defaultWant true env numPartitions scaleBy fudge
        numCpus bindMode0 nodes = some res ∧
      (∀ node, node < nodes.length → node ≤ 30 →
        (res.partitionToNodes (TC.NodeToPartition node numPartitions)).testBit node = true) ∧
      (∀ node (hn : node < nodes.length), TC.NodeToPartition node numPartitions ≠ 0 →
        ∀ cpu, cpu ∈ nodes.get ⟨node, hn⟩ → cpu < TC.kCpuSetSize →
          res.cpuToScaledPartition (cpu + fudge) =
            TC.NodeToPartition node numPartitions * scaleBy) ∧
      (∀ cpu, (∀ node (hn : node < nodes.length), cpu ∉ nodes.get ⟨node, hn⟩ ∨
          TC.NodeToPartition node numPartitions = 0) →
        res.cpuToScaledPartition (cpu + fudge) = 0) := by
  have hne1 : numPartitions ≠ 1 := by omega
  have hcpu' : ¬ TC.kCpuSetSize < numCpus := by omega
  obtain ⟨bm, hbm⟩ : ∃ bm, TC.initNumaTopology defaultWant true env numPartitions scaleBy
      fudge numCpus bindMode0 nodes = some
        ⟨(TC.numaLoop numPartitions scaleBy fudge nodes 0 (fun _ => 0)
            (TC.p2nInit numPartitions) false).2.2, bm,
         (TC.numaLoop numPartitions scaleBy fudge nodes 0 (fun _ => 0)
            (TC.p2nInit numPartitions) false).1,
         (TC.numaLoop numPartitions scaleBy fudge nodes 0 (fun _ => 0)
            (TC.p2nInit numPartitions) false).2.1⟩ := by
    rcases henabled with ⟨rfl, rfl⟩ | rfl | rfl | rfl | rfl
    · exact ⟨bindMode0, by simp [TC.initNumaTopology, hne1, hcpu']⟩
    · exact ⟨TC.NumaBindMode.kNone, by simp [TC.initNumaTopology, hne1, hcpu']⟩
    · exact ⟨TC.NumaBindMode.kAdvisory, by simp [TC.initNumaTopology, hne1, hcpu']⟩
    · exact ⟨TC.NumaBindMode.kAdvisory, by simp [TC.initNumaTopology, hne1, hcpu']⟩
    · exact ⟨TC.NumaBindMode.kStrict, by simp [TC.initNumaTopology, hne1, hcpu']⟩
  refine ⟨_, hbm, ?_, ?_, ?_⟩
  · intro node hn h30
    have := numaLoop_bit numPartitions scaleBy fudge nodes 0 (fun _ => 0)
      (TC.p2nInit numPartitions) false node hn (by omega)
    simpa using this
  · intro node hn hnz cpu hmem hlt
    have hlater : ∀ k2 (hk2 : k2 < nodes.length), node < k2 →
        TC.NodeToPartition (0 + k2) numPartitions ≠ 0 → cpu ∉ nodes.get ⟨k2, hk2⟩ := by
      intro k2 hk2 hlt2 _
      have hdisj2 := (List.pairwise_iff_get.mp hdisj) ⟨node, hn⟩ ⟨k2, hk2⟩ hlt2
      exact fun hmem2 => (Finset.disjoint_left.mp hdisj2) hmem hmem2
    have := numaLoop_c2p_set numPartitions scaleBy fudge nodes 0 (fun _ => 0)
      (TC.p2nInit numPartitions) false node hn cpu
      (by simpa using hnz) hmem hlt hlater
    simpa using this
  · intro cpu hno
    have := numaLoop_c2p_untouched numPartitions scaleBy fudge nodes 0 (fun _ => 0)
      (TC.p2nInit numPartitions) false (cpu + fudge) ?_
    · simpa using this
    · intro k hk hpart
      rcases hno k hk with hnm | hzero
      · intro hbad
        have : cpu + fudge - fudge = cpu := Nat.add_sub_cancel cpu fudge
        rw [this] at hbad
        exact hnm hbad.2.2
      · exact absurd (by simpa using hzero) (by simpa using hpart)

/-- Instance of `numa_partition_assignment`: two partitions, nodes 0 and
1, node 1 (partition 1) holding CPUs 2 and 3. -/
theorem numa_partition_assignment_witness :
    ∃ res, TC.initNumaTopology false true (some ['1']) 2 1 0 4 TC.NumaBindMode.kAdvisory
        [{0, 1}, {2, 3}] = some res ∧
      (∀ node, node < ([{0, 1}, {2, 3}] : List (Finset Nat)).length → node ≤ 30 →
        (res.partitionToNodes (TC.NodeToPartition node 2)).testBit node = true) ∧
      (∀ node (hn : node < ([{0, 1}, {2, 3}] : List (Finset Nat)).length),
        TC.NodeToPartition node 2 ≠ 0 →
        ∀ cpu, cpu ∈ ([{0, 1}, {2, 3}] : List (Finset Nat)).get ⟨node, hn⟩ →
          cpu < TC.kCpuSetSize →
          res.cpuToScaledPartition (cpu + 0) = TC.NodeToPartition node 2 * 1) ∧
      (∀ cpu, (∀ node (hn : node < ([{0, 1}, {2, 3}] : List (Finset Nat)).length),
          cpu ∉ ([{0, 1}, {2, 3}] : List (Finset Nat)).get ⟨node, hn⟩ ∨
          TC.NodeToPartition node 2 = 0) →
        res.cpuToScaledPartition (cpu + 0) = 0) :=
  numa_partition_assignment false (some ['1']) 2 1 0 4 TC.NumaBindMode.kAdvisory
    [{0, 1}, {2, 3}] (by norm_num) (by norm_num [TC.kCpuSetSize])
    (Or.inr (Or.inr (Or.inr (Or.inl rfl))))
    (by
      constructor
      · intro t ht
        simp only [List.mem_singleton] at ht
        subst ht
        decide
      · simp)

/-- C5: on a machine enumerating 33 NUMA nodes (ids 0..32) with two
compiled-in partitions and NUMA awareness enabled, the claim — and the
spec — say node 32 is recorded in the `uint64_t` node bitset of partition
`32 mod 2 = 0`; but the code computes the update with the 32-bit `int`
expression `1 << 32`, whose count-masked value is bit 0, so bit 32 of
partition 0's bitset stays clear.  Node 30 is still recorded correctly,
and node 31's update (`1 << 31`, the `int` value `-2^31`) pollutes
partition 1's bitset with bits of nonexistent nodes up to 63. -/
theorem numa_node32_not_recorded :
    (TC.initNumaTopology false true (some ['1']) 2 1 0 4 TC.NumaBindMode.kAdvisory
        (List.replicate 33 (∅ : Finset Nat))).map
      (fun res => ((res.partitionToNodes (TC.NodeToPartition 32 2)).testBit 32,
        (res.partitionToNodes (TC.NodeToPartition 30 2)).testBit 30,
        (res.partitionToNodes (TC.NodeToPartition 31 2)).testBit 63)) =
      some (false, true, true) := by
  decide

/-- C7: with at least two compiled-in partitions and rseq available,
`InitNumaTopology` resolves `TCMALLOC_NUMA_AWARE` as the claim states:
unset defers to the compiled-in default (keeping the incoming bind mode);
`"0"` disables awareness, leaving the tables at their defaults;
`"no-binding"` enables with bind mode None; `"1"` and `"advisory-binding"`
enable with bind mode Advisory; `"strict-binding"` enables with bind mode
Strict; every other value aborts the process. -/
theorem numa_env_resolution (defaultWant : Bool) (env : Option (List Char))
    (numPartitions scaleBy fudge numCpus : Nat) (bindMode0 : TC.NumaBindMode)
    (nodes : List (Finset Nat))
    (hnp : numPartitions ≠ 1) (hcpus : numCpus ≤ TC.kCpuSetSize) :
    (env = none → defaultWant = false →
      TC.initNumaTopology defaultWant true env numPartitions scaleBy fudge numCpus
          bindMode0 nodes =
        some ⟨false, bindMode0, fun _ => 0, TC.p2nInit numPartitions⟩) ∧
    (env = none → defaultWant = true →
      ∃ res, TC.initNumaTopology defaultWant true env numPartitions scaleBy fudge numCpus
          bindMode0 nodes = some res ∧ res.bindMode = bindMode0) ∧
    (env = some ['0'] →
      TC.initNumaTopology defaultWant true env numPartitions scaleBy fudge numCpus
          bindMode0 nodes =
        some ⟨false, bindMode0, fun _ => 0, TC.p2nInit numPartitions⟩) ∧
    (env = some ['n','o','-','b','i','n','d','i','n','g'] →
      ∃ res, TC.initNumaTopology defaultWant true env numPartitions scaleBy fudge numCpus
          bindMode0 nodes = some res ∧ res.bindMode = TC.NumaBindMode.kNone) ∧
    (env = some ['1'] →
      ∃ res, TC.initNumaTopology defaultWant true env numPartitions scaleBy fudge numCpus
          bindMode0 nodes = some res ∧ res.bindMode = TC.NumaBindMode.kAdvisory) ∧
    (env = some ['a','d','v','i','s','o','r','y','-','b','i','n','d','i','n','g'] →
      ∃ res, TC.initNumaTopology defaultWant true env numPartitions scaleBy fudge numCpus
          bindMode0 nodes = some res ∧ res.bindMode = TC.NumaBindMode.kAdvisory) ∧
    (env = some ['s','t','r','i','c','t','-','b','i','n','d','i','n','g'] →
      ∃ res, TC.initNumaTopology defaultWant true env numPartitions scaleBy fudge numCpus
          bindMode0 nodes = some res ∧ res.bindMode = TC.NumaBindMode.kStrict) ∧
    (∀ e, env = some e →
      e ≠ ['0'] → e ≠ ['1'] →
      e ≠ ['n','o','-','b','i','n','d','i','n','g'] →
      e ≠ ['a','d','v','i','s','o','r','y','-','b','i','n','d','i','n','g'] →
      e ≠ ['s','t','r','i','c','t','-','b','i','n','d','i','n','g'] →
      TC.initNumaTopology defaultWant true env numPartitions scaleBy fudge numCpus
          bindMode0 nodes = none) := by
  have hcpu' : ¬ TC.kCpuSetSize < numCpus := by omega
  have hmk : ∀ bm : TC.NumaBindMode, ∃ res : TC.NumaResult,
      (some (⟨(TC.numaLoop numPartitions scaleBy fudge nodes 0 (fun _ => 0)
            (TC.p2nInit numPartitions) false).2.2, bm,
          (TC.numaLoop numPartitions scaleBy fudge nodes 0 (fun _ => 0)
            (TC.p2nInit numPartitions) false).1,
          (TC.numaLoop numPartitions scaleBy fudge nodes 0 (fun _ => 0)
            (TC.p2nInit numPartitions) false).2.1⟩ : TC.NumaResult) = some res ∧
        res.bindMode = bm) := fun bm => ⟨_, rfl, rfl⟩
  refine ⟨?_, ?_, ?_, ?_, ?_, ?_, ?_, ?_⟩
  · rintro rfl rfl
    simp [TC.initNumaTopology, hnp]
  · rintro rfl rfl
    obtain ⟨res, hres, hbm⟩ := hmk bindMode0
    refine ⟨res, ?_, hbm⟩
    rw [← hres]
    simp [TC.initNumaTopology, hnp, hcpu']
  · rintro rfl
    simp [TC.initNumaTopology, hnp]
  · rintro rfl
    obtain ⟨res, hres, hbm⟩ := hmk TC.NumaBindMode.kNone
    refine ⟨res, ?_, hbm⟩
    rw [← hres]
    simp [TC.initNumaTopology, hnp, hcpu']
  · rintro rfl
    obtain ⟨res, hres, hbm⟩ := hmk TC.NumaBindMode.kAdvisory
    refine ⟨res, ?_, hbm⟩
    rw [← hres]
    simp [TC.initNumaTopology, hnp, hcpu']
  · rintro rfl
    obtain ⟨res, hres, hbm⟩ := hmk TC.NumaBindMode.kAdvisory
    refine ⟨res, ?_, hbm⟩
    rw [← hres]
    simp [TC.initNumaTopology, hnp, hcpu']
  · rintro rfl
    obtain ⟨res, hres, hbm⟩ := hmk TC.NumaBindMode.kStrict
    refine ⟨res, ?_, hbm⟩
    rw [← hres]
    simp [TC.initNumaTopology, hnp, hcpu']
  · rintro e rfl h0 h1 hnb hab hsb
    simp [TC.initNumaTopology, hnp, h0, h1, hnb, hab, hsb]

/-- C7 witness instantiating `numa_env_resolution`. -/
theorem numa_env_resolution_witness :
    TC.initNumaTopology true true (some ['x']) 2 1 0 4 TC.NumaBindMode.kAdvisory [] =
      none :=
  (numa_env_resolution true (some ['x']) 2 1 0 4 TC.NumaBindMode.kAdvisory []
      (by norm_num) (by norm_num [TC.kCpuSetSize])).2.2.2.2.2.2.2
    ['x'] rfl (by decide) (by decide) (by decide) (by decide) (by decide)

/-- C10 witness instantiating `iterate_sum_nearest_multiple`. -/
theorem iterate_sum_nearest_multiple_witness :
    TC.iterateSum 100 16 = TC.iterateCount 100 16 * 16 ∧
    16 ∣ TC.iterateSum 100 16 ∧
    ∀ k : Nat, Nat.dist (TC.iterateSum 100 16) 100 ≤ Nat.dist (k * 16) 100 :=
  iterate_sum_nearest_multiple 100 16 (by decide)

/-! ## Lemmas about `findCh` and digit strings -/

theorem findCh_eq_none_iff (c : Char) (l : List Char) :
    TC.findCh c l = none ↔ c ∉ l := by
  induction l with
  | nil => simp [TC.findCh]
  | cons x xs ih =>
    by_cases hx : x = c
    · subst hx
      simp [TC.findCh]
    · simp [TC.findCh, hx, Option.map_eq_none', ih, Ne.symm hx]

theorem findCh_cons_self (c : Char) (l : List Char) :
    TC.findCh c (c :: l) = some 0 := by
  simp [TC.findCh]

theorem findCh_cons_ne (c x : Char) (l : List Char) (h : x ≠ c) :
    TC.findCh c (x :: l) = (TC.findCh c l).map (· + 1) := by
  simp [TC.findCh, h]

theorem findCh_append_of_none (c : Char) (a b : List Char)
    (h : TC.findCh c a = none) :
    TC.findCh c (a ++ b) = (TC.findCh c b).map (· + a.length) := by
  induction a with
  | nil => simp
  | cons x xs ih =>
    have hx : x ≠ c := by
      intro hc
      subst hc
      simp [TC.findCh] at h
    rw [findCh_cons_ne c x xs hx] at h
    have hxs : TC.findCh c xs = none := by
      cases hfc : TC.findCh c xs with
      | none => rfl
      | some j => rw [hfc] at h; simp at h
    rw [List.cons_append, findCh_cons_ne c x _ hx, ih hxs]
    cases TC.findCh c b with
    | none => simp
    | some j => simp; omega

theorem digitStr_take (l : List Char) (k : Nat) (h : TC.DigitStr l) :
    TC.DigitStr (l.take k) :=
  fun c hc => h c (List.mem_of_mem_take hc)

theorem digitStr_findCh_none (l : List Char) (c : Char)
    (hc : ¬ ('0' ≤ c ∧ c ≤ '9')) (hD : TC.DigitStr l) : TC.findCh c l = none := by
  rw [findCh_eq_none_iff]
  intro hmem
  exact hc (hD c hmem)

/-! ## Lemmas about decimal rendering -/

theorem digitChar_bound (d : Nat) (h : d < 10) :
    '0' ≤ TC.digitChar d ∧ TC.digitChar d ≤ '9' := by
  interval_cases d <;> decide

theorem digitVal_digitChar (d : Nat) (h : d < 10) :
    TC.digitVal (TC.digitChar d) = some d := by
  interval_cases d <;> decide

theorem renderNatGo_spec : ∀ fuel n acc, n < fuel →
    TC.renderNatGo fuel n acc = TC.renderNatGo (n + 1) n [] ++ acc := by
  intro fuel
  induction fuel using Nat.strong_induction_on with
  | _ fuel ih =>
    match fuel with
    | 0 => intro n acc h; omega
    | f + 1 =>
      intro n acc h
      by_cases h10 : n < 10
      · simp [TC.renderNatGo, h10]
      · have hpos : 0 < n := by omega
        have hrec : n / 10 < n := Nat.div_lt_self hpos (by norm_num)
        have hL := ih f (by omega) (n / 10) (TC.digitChar (n % 10) :: acc) (by omega)
        have hR := ih n (by omega) (n / 10) [TC.digitChar (n % 10)] (by omega)
        calc TC.renderNatGo (f + 1) n acc
            = TC.renderNatGo f (n / 10) (TC.digitChar (n % 10) :: acc) := by
              simp [TC.renderNatGo, h10]
          _ = TC.renderNatGo (n / 10 + 1) (n / 10) [] ++ (TC.digitChar (n % 10) :: acc) := hL
          _ = (TC.renderNatGo (n / 10 + 1) (n / 10) [] ++ [TC.digitChar (n % 10)]) ++ acc := by
              simp
          _ = TC.renderNatGo n (n / 10) [TC.digitChar (n % 10)] ++ acc := by rw [← hR]
          _ = TC.renderNatGo (n + 1) n [] ++ acc := by
              have hn1 : TC.renderNatGo (n + 1) n [] =
                  TC.renderNatGo n (n / 10) [TC.digitChar (n % 10)] := by
                simp [TC.renderNatGo, h10]
              rw [hn1]

theorem renderNat_unfold (n : Nat) :
    TC.renderNat n = if n < 10 then [TC.digitChar n]
      else TC.renderNat (n / 10) ++ [TC.digitChar (n % 10)] := by
  unfold TC.renderNat
  by_cases h10 : n < 10
  · simp [TC.renderNatGo, h10]
  · rw [if_neg h10]
    have hpos : 0 < n := by omega
    have hrec : n / 10 < n := Nat.div_lt_self hpos (by norm_num)
    have h1 : TC.renderNatGo (n + 1) n [] =
        TC.renderNatGo n (n / 10) [TC.digitChar (n % 10)] := by
      simp [TC.renderNatGo, h10]
    rw [h1, renderNatGo_spec n (n / 10) [TC.digitChar (n % 10)] (by omega)]

theorem renderNat_ne_nil (n : Nat) : TC.renderNat n ≠ [] := by
  rw [renderNat_unfold]
  by_cases h10 : n < 10
  · simp [h10]
  · simp [h10]

theorem digitStr_renderNat (n : Nat) : TC.DigitStr (TC.renderNat n) := by
  induction n using Nat.strong_induction_on with
  | _ n ih =>
    rw [renderNat_unfold]
    by_cases h10 : n < 10
    · rw [if_pos h10]
      intro c hc
      have : c = TC.digitChar n := by simpa using hc
      subst this
      exact digitChar_bound n h10
    · rw [if_neg h10]
      intro c hc
      rcases List.mem_append.mp hc with hc | hc
      · have hpos : 0 < n := by omega
        exact ih (n / 10) (Nat.div_lt_self hpos (by norm_num)) c hc
      · have : c = TC.digitChar (n % 10) := by simpa using hc
        subst this
        exact digitChar_bound _ (Nat.mod_lt _ (by norm_num))

theorem atoiCore_append (a b : List Char) (acc : Nat) :
    TC.atoiCore (a ++ b) acc =
      match TC.atoiCore a acc with
      | none => none
      | some m => TC.atoiCore b m := by
  induction a generalizing acc with
  | nil => simp [TC.atoiCore]
  | cons x xs ih =>
    simp only [List.cons_append, TC.atoiCore]
    cases TC.digitVal x with
    | none => rfl
    | some d => exact ih (10 * acc + d)

theorem atoiCore_renderNat (n : Nat) : ∀ acc,
    TC.atoiCore (TC.renderNat n) acc =
      some (acc * 10 ^ (TC.renderNat n).length + n) := by
  induction n using Nat.strong_induction_on with
  | _ n ih =>
    intro acc
    rw [renderNat_unfold]
    by_cases h10 : n < 10
    · rw [if_pos h10]
      simp only [TC.atoiCore, digitVal_digitChar n h10]
      simp
      omega
    · rw [if_neg h10]
      have hpos : 0 < n := by omega
      have hrec : n / 10 < n := Nat.div_lt_self hpos (by norm_num)
      rw [atoiCore_append, ih (n / 10) hrec acc]
      simp only [TC.atoiCore, digitVal_digitChar (n % 10) (Nat.mod_lt _ (by norm_num))]
      have hdm : 10 * (n / 10) + n % 10 = n := Nat.div_add_mod n 10
      congr 1
      have hlen : (TC.renderNat (n / 10) ++ [TC.digitChar (n % 10)]).length =
          (TC.renderNat (n / 10)).length + 1 := by simp
      rw [hlen, pow_succ]
      calc 10 * (acc * 10 ^ (TC.renderNat (n / 10)).length + n / 10) + n % 10
          = acc * (10 ^ (TC.renderNat (n / 10)).length * 10) +
            (10 * (n / 10) + n % 10) := by ring
        _ = acc * (10 ^ (TC.renderNat (n / 10)).length * 10) + n := by rw [hdm]

theorem simpleAtoi_renderNat (n : Nat) (h : n ≤ TC.kIntMax) :
    TC.simpleAtoi (TC.renderNat n) = some n := by
  have hne : (TC.renderNat n).isEmpty = false := by
    cases hr : TC.renderNat n with
    | nil => exact absurd hr (renderNat_ne_nil n)
    | cons x xs => rfl
  rw [TC.simpleAtoi, hne]
  simp only [Bool.false_eq_true, if_false]
  rw [atoiCore_renderNat n 0]
  simp [h]

theorem renderNat_length_le (k : Nat) : ∀ n, 0 < k → n < 10 ^ k →
    (TC.renderNat n).length ≤ k := by
  induction k with
  | zero => intro n h; omega
  | succ k ih =>
    intro n _ hn
    rw [renderNat_unfold]
    by_cases h10 : n < 10
    · rw [if_pos h10]
      simp
    · rw [if_neg h10]
      have hpos : 0 < n := by omega
      have hk : 0 < k := by
        by_contra hk0
        have : k = 0 := by omega
        subst this
        simp at hn
        omega
      have hdiv : n / 10 < 10 ^ k := by
        rw [Nat.div_lt_iff_lt_mul (by norm_num : (0:Nat) < 10)]
        calc n < 10 ^ (k + 1) := hn
          _ = 10 ^ k * 10 := by rw [pow_succ]
      have := ih (n / 10) hk hdiv
      simp
      omega

theorem renderNat_length_le_ten (n : Nat) (h : n ≤ TC.kIntMax) :
    (TC.renderNat n).length ≤ 10 :=
  renderNat_length_le 10 n (by norm_num) (by
    have : TC.kIntMax < 10 ^ 10 := by norm_num [TC.kIntMax]
    omega)

/-! ## Lemmas about cpulist rendering and item sets -/

theorem renderCpulist_cons (i : TC.CpuItem) (is : List TC.CpuItem) :
    TC.renderCpulist (i :: is) = TC.renderItem i ++ TC.renderSep is := rfl

theorem renderSep_nil : TC.renderSep [] = [] := rfl

theorem renderSep_cons (i : TC.CpuItem) (is : List TC.CpuItem) :
    TC.renderSep (i :: is) = ',' :: TC.renderCpulist (i :: is) := rfl

theorem renderItem_ne_nil (i : TC.CpuItem) : TC.renderItem i ≠ [] := by
  cases i with
  | single n => exact renderNat_ne_nil n
  | range a b =>
    simp only [TC.renderItem]
    intro h
    rcases List.append_eq_nil.mp h with ⟨h1, _⟩
    exact renderNat_ne_nil a h1

theorem renderCpulist_eq_nil (rest : List TC.CpuItem)
    (h : TC.renderCpulist rest = []) : rest = [] := by
  cases rest with
  | nil => rfl
  | cons i is =>
    rw [renderCpulist_cons] at h
    rcases List.append_eq_nil.mp h with ⟨h1, _⟩
    exact absurd h1 (renderItem_ne_nil i)

theorem mem_cpulistCpus (x : Nat) (l : List TC.CpuItem) :
    x ∈ TC.cpulistCpus l ↔ ∃ i ∈ l, x ∈ TC.itemCpus i := by
  induction l with
  | nil => simp [TC.cpulistCpus]
  | cons i is ih =>
    rw [show TC.cpulistCpus (i :: is) = TC.itemCpus i ∪ TC.cpulistCpus is from rfl,
      Finset.mem_union, ih]
    simp

theorem cpulistCpus_append_singleton (l : List TC.CpuItem) (i : TC.CpuItem) :
    TC.cpulistCpus (l ++ [i]) = TC.cpulistCpus l ∪ TC.itemCpus i := by
  ext x
  simp [mem_cpulistCpus, Finset.mem_union, List.mem_append, or_and_right, exists_or]

theorem union_singleton_eq_insert (S : Finset Nat) (n : Nat) :
    S ∪ {n} = insert n S := by
  rw [Finset.insert_eq, Finset.union_comm]

/-! ## The branches of one `ParseCpulist` loop iteration -/

theorem current_take (carry r : List Char) (rc : Nat) :
    carry ++ r.take rc = (carry ++ r).take (carry.length + rc) :=
  (List.take_append rc).symm

theorem take_middle (D T : List Char) (sep : Char) (k : Nat) :
    (D ++ sep :: T).take (D.length + (k + 1)) = D ++ sep :: T.take k := by
  rw [List.take_append]
  rfl

theorem drop_middle (D T : List Char) (sep : Char) :
    (D ++ sep :: T).drop (D.length + 1) = T := by
  rw [show D ++ sep :: T = (D ++ [sep]) ++ T by simp]
  rw [show D.length + 1 = (D ++ [sep]).length by simp]
  exact List.drop_left _ _

theorem isEmpty_append_cons (a : List Char) (b : Char) (c : List Char) :
    (a ++ b :: c).isEmpty = false := by
  cases a <;> rfl

theorem unparsed_drop (carry r D T : List Char) (sep : Char) (rc : Nat)
    (hU : carry ++ r = D ++ sep :: T) (hrcr : rc ≤ r.length)
    (hm : D.length < carry.length + rc) :
    T.take (carry.length + rc - (D.length + 1)) ++ r.drop rc = T := by
  have h1 : r.drop rc = (carry ++ r).drop (carry.length + rc) := (List.drop_append rc).symm
  rw [hU] at h1
  have h2 : (D ++ sep :: T).drop (carry.length + rc) =
      T.drop (carry.length + rc - (D.length + 1)) := by
    rw [show D ++ sep :: T = (D ++ [sep]) ++ T by simp]
    nth_rewrite 1 [show carry.length + rc =
      (D ++ [sep]).length + (carry.length + rc - (D.length + 1)) from by simp; omega]
    exact List.drop_append _
  rw [h1, h2, List.take_append_drop]

theorem parseStep_comma (st : TC.PState) (r : List Char) (rc : Nat)
    (D T : List Char) (v : Nat)
    (hU : st.carry ++ r = D ++ ',' :: T)
    (hD : TC.DigitStr D)
    (hatoi : TC.simpleAtoi D = some v)
    (hrcr : rc ≤ r.length)
    (hm : D.length < st.carry.length + rc) :
    TC.parseStep st r rc = TC.StepRes.cont
      ⟨(match st.cpuFrom with
         | some a => st.cpus ∪ Finset.Icc a v
         | none => insert v st.cpus),
       T.take (st.carry.length + rc - (D.length + 1)), none⟩ (r.drop rc) := by
  have hcur : st.carry ++ r.take rc =
      D ++ ',' :: T.take (st.carry.length + rc - (D.length + 1)) := by
    have h0 := take_middle D T ',' (st.carry.length + rc - (D.length + 1))
    rw [show D.length + ((st.carry.length + rc - (D.length + 1)) + 1) =
        st.carry.length + rc from by omega] at h0
    rw [current_take st.carry r rc, hU, h0]
  have hfcomma : TC.findCh ','
      (D ++ ',' :: T.take (st.carry.length + rc - (D.length + 1))) = some D.length := by
    rw [findCh_append_of_none ',' D _ (digitStr_findCh_none D ',' (by decide) hD),
      findCh_cons_self]
    simp
  have hfdash : TC.dashFirst
      (TC.findCh '-' (D ++ ',' :: T.take (st.carry.length + rc - (D.length + 1))))
      (some D.length) = false := by
    rw [findCh_append_of_none '-' D _ (digitStr_findCh_none D '-' (by decide) hD),
      findCh_cons_ne '-' ',' _ (by decide)]
    cases hj : TC.findCh '-' (T.take (st.carry.length + rc - (D.length + 1))) with
    | none => rfl
    | some j =>
      simp only [Option.map_some']
      show TC.dashFirst (some (j + 1 + D.length)) (some D.length) = false
      simp only [TC.dashFirst]
      simp
  simp only [TC.parseStep, hcur, hfcomma, hfdash, isEmpty_append_cons,
    Option.isSome_some, Option.getD_some, List.take_left, hatoi, drop_middle]
  simp

theorem parseStep_dash (st : TC.PState) (r : List Char) (rc : Nat)
    (D T : List Char) (v : Nat)
    (hU : st.carry ++ r = D ++ '-' :: T)
    (hD : TC.DigitStr D)
    (hatoi : TC.simpleAtoi D = some v)
    (hrcr : rc ≤ r.length)
    (hm : D.length < st.carry.length + rc) :
    TC.parseStep st r rc = TC.StepRes.cont
      ⟨st.cpus, T.take (st.carry.length + rc - (D.length + 1)), some v⟩ (r.drop rc) := by
  have hcur : st.carry ++ r.take rc =
      D ++ '-' :: T.take (st.carry.length + rc - (D.length + 1)) := by
    have h0 := take_middle D T '-' (st.carry.length + rc - (D.length + 1))
    rw [show D.length + ((st.carry.length + rc - (D.length + 1)) + 1) =
        st.carry.length + rc from by omega] at h0
    rw [current_take st.carry r rc, hU, h0]
  have hfd : TC.findCh '-'
      (D ++ '-' :: T.take (st.carry.length + rc - (D.length + 1))) = some D.length := by
    rw [findCh_append_of_none '-' D _ (digitStr_findCh_none D '-' (by decide) hD),
      findCh_cons_self]
    simp
  have hfdashT : TC.dashFirst (some D.length)
      (TC.findCh ',' (D ++ '-' :: T.take (st.carry.length + rc - (D.length + 1)))) = true := by
    rw [findCh_append_of_none ',' D _ (digitStr_findCh_none D ',' (by decide) hD),
      findCh_cons_ne ',' '-' _ (by decide)]
    cases hj : TC.findCh ',' (T.take (st.carry.length + rc - (D.length + 1))) with
    | none => rfl
    | some j =>
      simp only [Option.map_some']
      show TC.dashFirst (some D.length) (some (j + 1 + D.length)) = true
      simp only [TC.dashFirst]
      simp
  simp only [TC.parseStep, hcur, hfd, hfdashT, isEmpty_append_cons,
    Option.getD_some, List.take_left, hatoi, drop_middle]
  simp

theorem parseStep_idle (st : TC.PState) (r : List Char) (rc : Nat) (D T : List Char)
    (hU : st.carry ++ r = D ++ T)
    (hD : TC.DigitStr D)
    (hm : st.carry.length + rc ≤ D.length)
    (hrc0 : rc ≠ 0) :
    TC.parseStep st r rc = TC.StepRes.cont
      ⟨st.cpus, st.carry ++ r.take rc, st.cpuFrom⟩ (r.drop rc) := by
  have hcur : st.carry ++ r.take rc = D.take (st.carry.length + rc) := by
    rw [current_take st.carry r rc, hU, List.take_append_of_le_length hm]
  have hDt : TC.DigitStr (D.take (st.carry.length + rc)) := digitStr_take D _ hD
  have hfd : TC.findCh '-' (D.take (st.carry.length + rc)) = none :=
    digitStr_findCh_none _ '-' (by decide) hDt
  have hfc : TC.findCh ',' (D.take (st.carry.length + rc)) = none :=
    digitStr_findCh_none _ ',' (by decide) hDt
  simp only [TC.parseStep, hcur, hfd, hfc, TC.dashFirst, Option.isSome_none]
  simp [hrc0]

theorem parseStep_eofnum (st : TC.PState) (v : Nat)
    (hne : st.carry ≠ [])
    (hD : TC.DigitStr st.carry)
    (hatoi : TC.simpleAtoi st.carry = some v) :
    TC.parseStep st [] 0 = TC.StepRes.cont
      ⟨(match st.cpuFrom with
         | some a => st.cpus ∪ Finset.Icc a v
         | none => insert v st.cpus), [], none⟩ [] := by
  have hie : st.carry.isEmpty = false := by
    cases hc : st.carry with
    | nil => exact absurd hc hne
    | cons x xs => rfl
  have hfd : TC.findCh '-' st.carry = none := digitStr_findCh_none _ '-' (by decide) hD
  have hfc : TC.findCh ',' st.carry = none := digitStr_findCh_none _ ',' (by decide) hD
  simp only [TC.parseStep, List.take_nil, List.append_nil, List.drop_nil, hie, hfd, hfc,
    TC.dashFirst, Option.isSome_none, Option.getD_none, List.take_length, hatoi,
    List.drop_length]
  simp

theorem parseStep_eofdone (st : TC.PState) (h : st.carry = []) :
    TC.parseStep st [] 0 = TC.StepRes.done st.cpus := by
  simp [TC.parseStep, h]

/-! ## Preservation of the parse invariant -/

theorem step_triple_of_cont (items : List TC.CpuItem) (st : TC.PState) (r : List Char)
    (rc : Nat) (s2 : TC.PState) (r2 : List Char)
    (hstep : TC.parseStep st r rc = TC.StepRes.cont s2 r2)
    (hinv2 : TC.ParseInv items s2 r2) :
    (TC.parseStep st r rc ≠ TC.StepRes.crash) ∧
    (∀ out, TC.parseStep st r rc = TC.StepRes.done out → out = TC.cpulistCpus items) ∧
    (∀ st' r', TC.parseStep st r rc = TC.StepRes.cont st' r' → TC.ParseInv items st' r') := by
  refine ⟨?_, ?_, ?_⟩
  · intro h; rw [hstep] at h; exact TC.StepRes.noConfusion h
  · intro out h; rw [hstep] at h; exact TC.StepRes.noConfusion h
  · intro st' r' h
    rw [hstep] at h
    injection h with h1 h2
    subst h1
    subst h2
    exact hinv2

theorem ParseInv_idle (items : List TC.CpuItem) (st : TC.PState) (r : List Char)
    (rc : Nat) (hinv : TC.ParseInv items st r)
    (hm16 : st.carry.length + rc ≤ TC.kBufSize) :
    TC.ParseInv items ⟨st.cpus, st.carry ++ r.take rc, st.cpuFrom⟩ (r.drop rc) := by
  obtain ⟨hlen, habs⟩ := hinv
  constructor
  · show (st.carry ++ r.take rc).length ≤ TC.kBufSize
    rw [show TC.kBufSize = 16 from rfl] at hm16 ⊢
    rw [List.length_append, List.length_take]
    omega
  · show TC.AbsCfg items st.cpus st.cpuFrom ((st.carry ++ r.take rc) ++ r.drop rc)
    rw [List.append_assoc, List.take_append_drop]
    exact habs

set_option maxHeartbeats 1000000 in
theorem parseStep_preserve (items : List TC.CpuItem) (st : TC.PState) (r : List Char)
    (rc : Nat) (hwf : TC.WfItems items) (hinv : TC.ParseInv items st r)
    (hv : TC.ValidRc st r rc) :
    (TC.parseStep st r rc ≠ TC.StepRes.crash) ∧
    (∀ out, TC.parseStep st r rc = TC.StepRes.done out → out = TC.cpulistCpus items) ∧
    (∀ st' r', TC.parseStep st r rc = TC.StepRes.cont st' r' → TC.ParseInv items st' r') := by
  obtain ⟨hlen, habs⟩ := hinv
  obtain ⟨hv1, hv2, hv3⟩ := hv
  have hb : TC.kBufSize = 16 := rfl
  have hlen16 : st.carry.length ≤ 16 := hb ▸ hlen
  have hv1' : rc ≤ 16 - st.carry.length := hb ▸ hv1
  have hm16 : st.carry.length + rc ≤ 16 := by omega
  have hm16' : st.carry.length + rc ≤ TC.kBufSize := hb ▸ hm16
  rcases habs with ⟨proc, rest, hitems, hS, hcf, hUtext⟩ |
    ⟨proc, a, b, rest, hitems, hS, hcf, hUtext⟩
  · -- at an item boundary
    cases rest with
    | nil =>
      have hU0 : st.carry ++ r = [] := by rw [hUtext]; rfl
      rcases List.append_eq_nil.mp hU0 with ⟨hc0, hr0⟩
      subst hr0
      have hrc0 : rc = 0 := by simpa using hv2
      subst hrc0
      have hstep := parseStep_eofdone st hc0
      refine ⟨?_, ?_, ?_⟩
      · intro h; rw [hstep] at h; exact TC.StepRes.noConfusion h
      · intro out h
        rw [hstep] at h
        injection h with h1
        rw [← h1, hS, hitems]
        simp
      · intro st' r' h; rw [hstep] at h; exact TC.StepRes.noConfusion h
    | cons item rest2 =>
      have hUtext' : st.carry ++ r = TC.renderItem item ++ TC.renderSep rest2 := by
        rw [hUtext, renderCpulist_cons]
      cases item with
      | single n =>
        have hn : n ≤ TC.kIntMax := hwf (TC.CpuItem.single n) (by rw [hitems]; simp)
        have hatoi := simpleAtoi_renderNat n hn
        have hD := digitStr_renderNat n
        have hDne := renderNat_ne_nil n
        have hlen10 := renderNat_length_le_ten n hn
        by_cases hm : (TC.renderNat n).length < st.carry.length + rc
        · cases rest2 with
          | nil =>
            exfalso
            have hlenU : st.carry.length + r.length = (TC.renderNat n).length := by
              have := congrArg List.length hUtext'
              simpa [renderSep_nil, TC.renderItem] using this
            omega
          | cons i2 r2 =>
            have hU2 : st.carry ++ r =
                TC.renderNat n ++ ',' :: TC.renderCpulist (i2 :: r2) := by
              rw [hUtext', renderSep_cons]
              rfl
            have hstep := parseStep_comma st r rc (TC.renderNat n)
              (TC.renderCpulist (i2 :: r2)) n hU2 hD hatoi hv2 hm
            simp only [hcf] at hstep
            refine step_triple_of_cont items st r rc _ _ hstep ?_
            constructor
            · show (List.take (st.carry.length + rc - ((TC.renderNat n).length + 1))
                  (TC.renderCpulist (i2 :: r2))).length ≤ TC.kBufSize
              rw [hb, List.length_take]
              omega
            · show TC.AbsCfg items (insert n st.cpus) none
                (List.take (st.carry.length + rc - ((TC.renderNat n).length + 1))
                  (TC.renderCpulist (i2 :: r2)) ++ r.drop rc)
              rw [unparsed_drop st.carry r (TC.renderNat n)
                (TC.renderCpulist (i2 :: r2)) ',' rc hU2 hv2 hm]
              left
              refine ⟨proc ++ [TC.CpuItem.single n], i2 :: r2, ?_, ?_, rfl, rfl⟩
              · rw [hitems, List.append_assoc]; rfl
              · rw [hS, cpulistCpus_append_singleton,
                  show TC.itemCpus (TC.CpuItem.single n) = {n} from rfl,
                  union_singleton_eq_insert]
        · by_cases hrc0 : rc = 0
          · rcases hv3 hrc0 with hrnil | hfull
            · cases rest2 with
              | nil =>
                have hcarryD : st.carry = TC.renderNat n := by
                  rw [hrnil] at hUtext'
                  simpa [renderSep_nil, TC.renderItem] using hUtext'
                have hstep := parseStep_eofnum st n (by rw [hcarryD]; exact hDne)
                  (by rw [hcarryD]; exact hD) (by rw [hcarryD]; exact hatoi)
                simp only [hcf] at hstep
                subst hrnil
                subst hrc0
                refine step_triple_of_cont items st [] 0 _ _ hstep ?_
                refine ⟨by simp, ?_⟩
                show TC.AbsCfg items (insert n st.cpus) none ([] ++ [])
                left
                refine ⟨proc ++ [TC.CpuItem.single n], [], ?_, ?_, rfl, rfl⟩
                · rw [hitems]; simp
                · rw [hS, cpulistCpus_append_singleton,
                    show TC.itemCpus (TC.CpuItem.single n) = {n} from rfl,
                    union_singleton_eq_insert]
              | cons i2 r2 =>
                exfalso
                have hlenU := congrArg List.length hUtext'
                rw [hrnil] at hlenU
                simp [renderSep_cons, TC.renderItem] at hlenU
                omega
            · exfalso
              have hfull16 : st.carry.length = 16 := hb ▸ hfull
              omega
          · have hstep := parseStep_idle st r rc (TC.renderNat n) (TC.renderSep rest2)
              hUtext' hD (by omega) hrc0
            exact step_triple_of_cont items st r rc _ _ hstep
              (ParseInv_idle items st r rc
                ⟨hlen, Or.inl ⟨proc, TC.CpuItem.single n :: rest2, hitems, hS, hcf, hUtext⟩⟩
                hm16')
      | range ra rb =>
        have hra : ra ≤ TC.kIntMax ∧ rb ≤ TC.kIntMax :=
          hwf (TC.CpuItem.range ra rb) (by rw [hitems]; simp)
        have hatoi := simpleAtoi_renderNat ra hra.1
        have hD := digitStr_renderNat ra
        have hlen10 := renderNat_length_le_ten ra hra.1
        have hU2 : st.carry ++ r =
            TC.renderNat ra ++ '-' :: (TC.renderNat rb ++ TC.renderSep rest2) := by
          rw [hUtext']
          simp [TC.renderItem, List.append_assoc]
        by_cases hm : (TC.renderNat ra).length < st.carry.length + rc
        · have hstep := parseStep_dash st r rc (TC.renderNat ra)
            (TC.renderNat rb ++ TC.renderSep rest2) ra hU2 hD hatoi hv2 hm
          refine step_triple_of_cont items st r rc _ _ hstep ?_
          constructor
          · show (List.take (st.carry.length + rc - ((TC.renderNat ra).length + 1))
                (TC.renderNat rb ++ TC.renderSep rest2)).length ≤ TC.kBufSize
            rw [hb, List.length_take]
            omega
          · show TC.AbsCfg items st.cpus (some ra)
              (List.take (st.carry.length + rc - ((TC.renderNat ra).length + 1))
                (TC.renderNat rb ++ TC.renderSep rest2) ++ r.drop rc)
            rw [unparsed_drop st.carry r (TC.renderNat ra)
              (TC.renderNat rb ++ TC.renderSep rest2) '-' rc hU2 hv2 hm]
            right
            exact ⟨proc, ra, rb, rest2, hitems, hS, rfl, rfl⟩
        · by_cases hrc0 : rc = 0
          · rcases hv3 hrc0 with hrnil | hfull
            · exfalso
              have hlenU := congrArg List.length hU2
              rw [hrnil] at hlenU
              simp at hlenU
              omega
            · exfalso
              have hfull16 : st.carry.length = 16 := hb ▸ hfull
              omega
          · have hstep := parseStep_idle st r rc (TC.renderNat ra)
              ('-' :: (TC.renderNat rb ++ TC.renderSep rest2)) hU2 hD (by omega) hrc0
            exact step_triple_of_cont items st r rc _ _ hstep
              (ParseInv_idle items st r rc
                ⟨hlen, Or.inl ⟨proc, TC.CpuItem.range ra rb :: rest2, hitems, hS, hcf, hUtext⟩⟩
                hm16')
  · -- inside a dash range
    have hble : b ≤ TC.kIntMax := (hwf _ (show TC.CpuItem.range a b ∈ items by
      rw [hitems]; simp)).2
    have hatoi := simpleAtoi_renderNat b hble
    have hD := digitStr_renderNat b
    have hDne := renderNat_ne_nil b
    have hlen10 := renderNat_length_le_ten b hble
    by_cases hm : (TC.renderNat b).length < st.carry.length + rc
    · cases rest with
      | nil =>
        exfalso
        have hlenU := congrArg List.length hUtext
        simp [renderSep_nil] at hlenU
        omega
      | cons i2 r2 =>
        have hU2 : st.carry ++ r = TC.renderNat b ++ ',' :: TC.renderCpulist (i2 :: r2) := by
          rw [hUtext, renderSep_cons]
        have hstep := parseStep_comma st r rc (TC.renderNat b)
          (TC.renderCpulist (i2 :: r2)) b hU2 hD hatoi hv2 hm
        simp only [hcf] at hstep
        refine step_triple_of_cont items st r rc _ _ hstep ?_
        constructor
        · show (List.take (st.carry.length + rc - ((TC.renderNat b).length + 1))
              (TC.renderCpulist (i2 :: r2))).length ≤ TC.kBufSize
          rw [hb, List.length_take]
          omega
        · show TC.AbsCfg items (st.cpus ∪ Finset.Icc a b) none
            (List.take (st.carry.length + rc - ((TC.renderNat b).length + 1))
              (TC.renderCpulist (i2 :: r2)) ++ r.drop rc)
          rw [unparsed_drop st.carry r (TC.renderNat b)
            (TC.renderCpulist (i2 :: r2)) ',' rc hU2 hv2 hm]
          left
          refine ⟨proc ++ [TC.CpuItem.range a b], i2 :: r2, ?_, ?_, rfl, rfl⟩
          · rw [hitems, List.append_assoc]; rfl
          · rw [cpulistCpus_append_singleton, ← hS]; rfl
    · by_cases hrc0 : rc = 0
      · rcases hv3 hrc0 with hrnil | hfull
        · cases rest with
          | nil =>
            have hcarryD : st.carry = TC.renderNat b := by
              rw [hrnil] at hUtext
              simpa [renderSep_nil] using hUtext
            have hstep := parseStep_eofnum st b (by rw [hcarryD]; exact hDne)
              (by rw [hcarryD]; exact hD) (by rw [hcarryD]; exact hatoi)
            simp only [hcf] at hstep
            subst hrnil
            subst hrc0
            refine step_triple_of_cont items st [] 0 _ _ hstep ?_
            refine ⟨by simp, ?_⟩
            show TC.AbsCfg items (st.cpus ∪ Finset.Icc a b) none ([] ++ [])
            left
            refine ⟨proc ++ [TC.CpuItem.range a b], [], ?_, ?_, rfl, rfl⟩
            · rw [hitems]; simp
            · rw [cpulistCpus_append_singleton, ← hS]; rfl
          | cons i2 r2 =>
            exfalso
            have hlenU := congrArg List.length hUtext
            rw [hrnil] at hlenU
            simp [renderSep_cons] at hlenU
            omega
        · exfalso
          have hfull16 : st.carry.length = 16 := hb ▸ hfull
          omega
      · have hstep := parseStep_idle st r rc (TC.renderNat b) (TC.renderSep rest)
          hUtext hD (by omega) hrc0
        exact step_triple_of_cont items st r rc _ _ hstep
          (ParseInv_idle items st r rc
            ⟨hlen, Or.inr ⟨proc, a, b, rest, hitems, hS, hcf, hUtext⟩⟩ hm16')

/-! ## Soundness of every run of the parser loop -/

theorem parseRun_sound (st : TC.PState) (r : List Char) (o : Option (Finset Nat))
    (hrun : TC.ParseRun st r o) :
    ∀ items, TC.WfItems items → TC.ParseInv items st r →
      o = some (TC.cpulistCpus items) := by
  induction hrun with
  | done st r rc out hv he =>
    intro items hwf hinv
    rw [(parseStep_preserve items st r rc hwf hinv hv).2.1 out he]
  | crash st r rc hv he =>
    intro items hwf hinv
    exact absurd he (parseStep_preserve items st r rc hwf hinv hv).1
  | next st st' r r' rc o hv he _ ih =>
    intro items hwf hinv
    exact ih items hwf ((parseStep_preserve items st r rc hwf hinv hv).2.2 st' r' he)

theorem validRc_x (rc : Nat) (hv : TC.ValidRc TC.initPState ['x'] rc) : rc = 1 := by
  obtain ⟨h1, h2, h3⟩ := hv
  have h2' : rc ≤ 1 := by simpa using h2
  rcases Nat.eq_zero_or_pos rc with rfl | hp
  · rcases h3 rfl with h | h
    · exact absurd h (by decide)
    · exact absurd h (by decide)
  · omega

theorem validRc_x2 (rc : Nat)
    (hv : TC.ValidRc ⟨∅, ['x'], none⟩ [] rc) : rc = 0 := by
  obtain ⟨_, h2, _⟩ := hv
  simpa using h2

theorem parseRun_x_tail (o : Option (Finset Nat))
    (h : TC.ParseRun ⟨∅, ['x'], none⟩ [] o) : o = none := by
  cases h with
  | done st r rc out hv he =>
    rw [validRc_x2 rc hv] at he
    rw [show TC.parseStep ⟨∅, ['x'], none⟩ [] 0 = TC.StepRes.crash from by decide] at he
    exact TC.StepRes.noConfusion he
  | crash st r rc hv he => rfl
  | next st st' r r' rc o hv he h2 =>
    rw [validRc_x2 rc hv] at he
    rw [show TC.parseStep ⟨∅, ['x'], none⟩ [] 0 = TC.StepRes.crash from by decide] at he
    exact TC.StepRes.noConfusion he

theorem parseRun_x_crash (o : Option (Finset Nat))
    (h : TC.ParseRun TC.initPState ['x'] o) : o = none := by
  cases h with
  | done st r rc out hv he =>
    rw [validRc_x rc hv] at he
    rw [show TC.parseStep TC.initPState ['x'] 1 =
      TC.StepRes.cont ⟨∅, ['x'], none⟩ [] from by decide] at he
    exact TC.StepRes.noConfusion he
  | crash st r rc hv he => rfl
  | next st st' r r' rc o hv he h2 =>
    rw [validRc_x rc hv] at he
    rw [show TC.parseStep TC.initPState ['x'] 1 =
      TC.StepRes.cont ⟨∅, ['x'], none⟩ [] from by decide] at he
    injection he with h1' h2'
    rw [← h1', ← h2'] at h2
    exact parseRun_x_tail o h2

/-- C6: for every cpulist text of comma-separated single integers and
inclusive dash-ranges (each number fitting in an `int`), every execution
of `ParseCpulist` — under every valid chunking of the input by the
incremental read callback — returns exactly the set-union of the listed
integers and inclusive ranges (a range with `a > b` contributes the empty
`Finset.Icc a b`, and empty input yields the empty set); and on the
malformed integer text `"x"` every execution is a fatal
`CHECK_CONDITION` failure. -/
theorem parseCpulist_union (items : List TC.CpuItem) (o oBad : Option (Finset Nat))
    (hwf : TC.WfItems items)
    (hrun : TC.ParseRun TC.initPState (TC.renderCpulist items) o)
    (hbad : TC.ParseRun TC.initPState ['x'] oBad) :
    o = some (TC.cpulistCpus items) ∧ oBad = none := by
  refine ⟨parseRun_sound _ _ _ hrun items hwf ?_, parseRun_x_crash _ hbad⟩
  exact ⟨by simp [TC.initPState], Or.inl ⟨[], items, rfl, rfl, rfl, rfl⟩⟩

theorem run_example : TC.ParseRun TC.initPState
    (TC.renderCpulist [TC.CpuItem.range 0 2, TC.CpuItem.single 5, TC.CpuItem.range 8 9])
    (some ((insert 5 ((∅ : Finset Nat) ∪ Finset.Icc 0 2)) ∪ Finset.Icc 8 9)) := by
  have hrender : TC.renderCpulist
      [TC.CpuItem.range 0 2, TC.CpuItem.single 5, TC.CpuItem.range 8 9] =
      ['0', '-', '2', ',', '5', ',', '8', '-', '9'] := by decide
  rw [hrender]
  exact TC.ParseRun.next TC.initPState ⟨∅, ['2', ',', '5', ',', '8', '-', '9'], some 0⟩
    ['0', '-', '2', ',', '5', ',', '8', '-', '9'] [] 9 _ (by decide) rfl
    (TC.ParseRun.next _ ⟨(∅ : Finset Nat) ∪ Finset.Icc 0 2,
        ['5', ',', '8', '-', '9'], none⟩ [] [] 0 _ (by decide) rfl
      (TC.ParseRun.next _ ⟨insert 5 ((∅ : Finset Nat) ∪ Finset.Icc 0 2),
          ['8', '-', '9'], none⟩ [] [] 0 _ (by decide) rfl
        (TC.ParseRun.next _ ⟨insert 5 ((∅ : Finset Nat) ∪ Finset.Icc 0 2),
            ['9'], some 8⟩ [] [] 0 _ (by decide) rfl
          (TC.ParseRun.next _ ⟨(insert 5 ((∅ : Finset Nat) ∪ Finset.Icc 0 2)) ∪
              Finset.Icc 8 9, [], none⟩ [] [] 0 _ (by decide) rfl
            (TC.ParseRun.done _ [] 0
              ((insert 5 ((∅ : Finset Nat) ∪ Finset.Icc 0 2)) ∪ Finset.Icc 8 9)
              (by decide) rfl)))))

theorem crash_example : TC.ParseRun TC.initPState ['x'] none :=
  TC.ParseRun.next TC.initPState ⟨∅, ['x'], none⟩ ['x'] [] 1 none (by decide) rfl
    (TC.ParseRun.crash ⟨∅, ['x'], none⟩ [] 0 (by decide) rfl)

/-- C6 witness instantiating `parseCpulist_union` on the input
`"0-2,5,8-9"` and the malformed input `"x"`. -/
theorem parseCpulist_union_witness :
    (some ((insert 5 ((∅ : Finset Nat) ∪ Finset.Icc 0 2)) ∪ Finset.Icc 8 9) =
      some (TC.cpulistCpus
        [TC.CpuItem.range 0 2, TC.CpuItem.single 5, TC.CpuItem.range 8 9])) ∧
    ((none : Option (Finset Nat)) = none) :=
  parseCpulist_union [TC.CpuItem.range 0 2, TC.CpuItem.single 5, TC.CpuItem.range 8 9]
    (some ((insert 5 ((∅ : Finset Nat) ∪ Finset.Icc 0 2)) ∪ Finset.Icc 8 9)) none
    (by
      intro i hi
      simp only [List.mem_cons, List.not_mem_nil, or_false] at hi
      rcases hi with rfl | rfl | rfl
      · exact ⟨by decide, by decide⟩
      · show (5 : Nat) ≤ TC.kIntMax
        decide
      · exact ⟨by decide, by decide⟩)
    run_example crash_example

end TC
